import Mathlib

/-!
Verification of game1: weighted tile selection and atlas decoding.

A shallow embedding of `src/game1/main.cpp`: the uniform sampler
(`generate_randoms`), the weighted selector (`non_uniform_decisions`), the
atlas decoder (`decode_atlas`), the terrain generator (`randomize_terrain`) and
the placement of the draw calls (`render_tiles`).

Conventions of the embedding.

* `std::vector<T>` is a `List`; `push_back` appends at the end.
* `Uint16` and `Uint32` values are natural numbers; every arithmetic
  operation and every narrowing store carries its explicit reduction
  modulo `2^16` or `2^32`.
* `float` values are rational numbers.  The operations on them that the
  program uses (conversion of a literal, conversion of an integer,
  subtraction, division) are the fields of a `FloatArith`; comparisons are
  exact.  Two instances are given: `exact`, in which every operation is the
  mathematical one, and `binary32`, in which every result is rounded to the
  nearest IEEE 754 single precision value, ties to even.
* `rand()` is a stream `rng : Nat → Nat` of the results of the successive
  calls; a function that calls `rand()` returns the remaining stream.
  `RAND_MAX` (from `<cstdlib>`) is a parameter.
* The renderer is the list of the `SDL_RenderCopy` calls issued, in order.
-/

namespace Game1

/-! ## Settings (main.cpp lines 9-17) -/

namespace Settings

/-- Window width in pixels. -/
def WIDTH : Nat := 960

/-- Window height in pixels. -/
def HEIGHT : Nat := 720

/-- Number of tile columns of the terrain grid. -/
def HORZ_TILES : Nat := 16

/-- Number of tile rows of the terrain grid. -/
def VERT_TILES : Nat := 16

/-- Width of a drawn tile. -/
def DRAW_TILE_WIDTH : Nat := 32

/-- Height of a drawn tile. -/
def DRAW_TILE_HEIGHT : Nat := 32

/-- Side of a tile of the atlas image. -/
def ATLAS_TILESIZE : Nat := 16

end Settings

/-! ## Machine integers -/

/-- Narrowing conversion to `Uint16`. -/
def toUint16 (n : Nat) : Nat := n % 65536

/-- Multiplication of two `Uint32` values. -/
def u32_mul (a b : Nat) : Nat := (a * b) % 4294967296

/-- Subtraction of two `Uint32` values (both below `2^32`), wrapping around
on underflow. -/
def u32_sub (a b : Nat) : Nat := (a + 4294967296 - b) % 4294967296

/-- Addition of two `Uint32` values. -/
def u32_add (a b : Nat) : Nat := (a + b) % 4294967296

/-- Conversion of a `Uint32` value to `int` (32 bits, two's complement). -/
def toInt32 (n : Nat) : Int :=
  if n < 2147483648 then (n : Int) else (n : Int) - 4294967296

/-- The struct `Pair` (lines 19-22): two `Uint16` fields. -/
structure Pair where
  x : Nat
  y : Nat
  deriving DecidableEq, Repr

/-- The struct `SDL_Rect` of SDL2: four `int` fields, in the order x, y, w, h. -/
structure SDL_Rect where
  x : Int
  y : Int
  w : Int
  h : Int
  deriving DecidableEq, Repr

/-! ## Floating point -/

/-- Round a rational to the nearest integer, ties to the even neighbour. -/
def roundNearestEven (q : ℚ) : ℤ :=
  let f := ⌊q⌋
  if q - f < 1 / 2 then f
  else if 1 / 2 < q - f then f + 1
  else if f % 2 = 0 then f else f + 1

/-- Rounding of a non-negative rational to IEEE 754 binary32, round to nearest,
ties to even.  The exponent of the unit in the last place is
`max ⌊log₂ a⌋ (-126) - 23` (24 significant bits, gradual underflow below
`2^-126`).  Overflow to infinity is not modelled: the values of this program
stay below `2^32`. -/
def roundBinary32Nonneg (a : ℚ) : ℚ :=
  if a = 0 then 0
  else
    let u : ℚ := (2 : ℚ) ^ (max (Int.log 2 a) (-126) - 23)
    (roundNearestEven (a / u) : ℚ) * u

/-- Rounding of a rational to IEEE 754 binary32 (symmetric in the sign). -/
def roundBinary32 (x : ℚ) : ℚ :=
  if x < 0 then -roundBinary32Nonneg (-x) else roundBinary32Nonneg x

/-- The `float` operations used by the program. -/
structure FloatArith where
  /-- The value of a decimal literal stored in a `float`. -/
  lit : ℚ → ℚ
  /-- Conversion of an `int` to `float`. -/
  ofNat : Nat → ℚ
  /-- The operator `-` on `float`. -/
  sub : ℚ → ℚ → ℚ
  /-- The operator `/` on `float`. -/
  div : ℚ → ℚ → ℚ

/-- Exact arithmetic: a `float` is read as the rational it denotes and no
operation rounds. -/
def exact : FloatArith where
  lit := fun q => q
  ofNat := fun n => (n : ℚ)
  sub := fun a b => a - b
  div := fun a b => a / b

/-- IEEE 754 single precision: every operation returns the binary32 value
nearest to the mathematical result.  A literal such as `0.025` is a `double`
constant narrowed to `float` on initialisation of the vector; for the four
literals of this program that gives the binary32 value nearest to the
decimal. -/
def binary32 : FloatArith where
  lit := fun q => roundBinary32 q
  ofNat := fun n => roundBinary32 (n : ℚ)
  sub := fun a b => roundBinary32 (a - b)
  div := fun a b => roundBinary32 (a / b)

/-! ## generate_randoms (lines 42-48) -/

/-- The function `generate_randoms(outvec, count)`: `count` times, push
`rand() / float(RAND_MAX)`.  Returns the vector and the remaining stream of
`rand()` results. -/
def generate_randoms (A : FloatArith) (RAND_MAX : Nat) :
    (Nat → Nat) → List ℚ → Nat → List ℚ × (Nat → Nat)
  | rng, outvec, 0 => (outvec, rng)
  | rng, outvec, count + 1 =>
      generate_randoms A RAND_MAX (fun i => rng (i + 1))
        (outvec ++ [A.div (A.ofNat (rng 0)) (A.ofNat RAND_MAX)]) count

/-! ## non_uniform_decisions (lines 54-72) -/

/-- The inner loop (lines 62-70) for one sample.  The list argument holds the
entries `revhist[search], revhist[search+1], ...` still to be visited, `search`
is the `Uint32` loop counter (a table has fewer than `2^32` entries) and `rfv`
the current value of `*rfv`.  The result is the value pushed on `outvec`, the
counter narrowed to `Uint16`, or `none` when the loop ends without a push. -/
def non_uniform_search (A : FloatArith) : List ℚ → Nat → ℚ → Option Nat
  | [], _, _ => none
  | w :: rest, search, rfv =>
      if rfv < w then some (toUint16 search)
      else non_uniform_search A rest (search + 1) (A.sub rfv w)

/-- The outer loop (lines 61-71) over the samples of `randvec`. -/
def non_uniform_select (A : FloatArith) (outvec : List Nat) (randvec : List ℚ)
    (revhist : List ℚ) : List Nat :=
  randvec.foldl
    (fun out rfv =>
      match non_uniform_search A revhist 0 rfv with
      | some c => out ++ [c]
      | none => out)
    outvec

/-- The function `non_uniform_decisions(outvec, count, revhist)`: draw `count`
samples with `generate_randoms` into a fresh vector, then run the selection
loop over them. -/
def non_uniform_decisions (A : FloatArith) (RAND_MAX : Nat) (rng : Nat → Nat)
    (outvec : List Nat) (count : Nat) (revhist : List ℚ) : List Nat × (Nat → Nat) :=
  let g := generate_randoms A RAND_MAX rng [] count
  (non_uniform_select A outvec g.1 revhist, g.2)

/-! ## decode_atlas (lines 87-101) -/

/-- The body of the loop of `decode_atlas` for one choice (lines 91-98). -/
def decode_pair (c : Nat) : Pair :=
  if c < 5 then
    { x := toUint16 (u32_mul c Settings.ATLAS_TILESIZE), y := 0 }
  else
    { x := toUint16
        (u32_mul (c + 3) Settings.ATLAS_TILESIZE % u32_mul Settings.ATLAS_TILESIZE 3),
      y := toUint16
        (u32_sub (u32_mul (c / 3) Settings.ATLAS_TILESIZE) Settings.ATLAS_TILESIZE) }

/-- The function `decode_atlas(outvec, choices)`: push one pair per choice. -/
def decode_atlas (outvec : List Pair) (choices : List Nat) : List Pair :=
  choices.foldl (fun out c => out ++ [decode_pair c]) outvec

/-! ## randomize_terrain (lines 129-160) -/

/-- The literal table `reverse_histogram` (lines 132-147). -/
def reverse_histogram (A : FloatArith) : List ℚ :=
  [A.lit 0.76875, A.lit 0.025, A.lit 0.025, A.lit 0.025, A.lit 0.025, A.lit 0.025,
   A.lit 0.003125, A.lit 0.003125, A.lit 0.025, A.lit 0.0125, A.lit 0.0125,
   A.lit 0.025, A.lit 0.0125, A.lit 0.0125]

/-- The region pushed for one pair (lines 153-158). -/
def tile_rect (p : Pair) : SDL_Rect :=
  { w := (Settings.ATLAS_TILESIZE : Int), h := (Settings.ATLAS_TILESIZE : Int),
    x := (p.x : Int), y := (p.y : Int) }

/-- The composition loop of `randomize_terrain` (lines 152-159). -/
def randomize_terrain_compose (terrain : List SDL_Rect) (pairs : List Pair) :
    List SDL_Rect :=
  pairs.foldl (fun t p => t ++ [tile_rect p]) terrain

/-- The function `randomize_terrain(terrain)`: clear `terrain`, select
`HORZ_TILES * VERT_TILES` choices (the `Uint32` product is narrowed to the
`Uint16` parameter `count`), decode them and push one region per pair.
Returns the new terrain and the remaining stream of `rand()` results. -/
def randomize_terrain (A : FloatArith) (RAND_MAX : Nat) (rng : Nat → Nat)
    (_terrain : List SDL_Rect) : List SDL_Rect × (Nat → Nat) :=
  let terrain : List SDL_Rect := []
  let temp_choices : List Nat := []
  let r := non_uniform_decisions A RAND_MAX rng temp_choices
    (toUint16 (u32_mul Settings.HORZ_TILES Settings.VERT_TILES)) (reverse_histogram A)
  let pairs := decode_atlas [] r.1
  (randomize_terrain_compose terrain pairs, r.2)

/-! ## render_tiles (lines 104-126) -/

/-- One call `SDL_RenderCopy(rend, tileset, &srcrect, &dstrect)`: the source
rectangle of the atlas and the destination rectangle of the window. -/
structure RenderCopy where
  srcrect : SDL_Rect
  dstrect : SDL_Rect
  deriving DecidableEq, Repr

/-- The constant `translate` of `render_tiles` (lines 108-111): `Uint32`
expressions stored in the `Uint16` fields of a `Pair`. -/
def render_tiles_translate : Pair :=
  { x := toUint16 (u32_sub (Settings.WIDTH / 2)
      (u32_mul Settings.HORZ_TILES Settings.DRAW_TILE_WIDTH / 2)),
    y := toUint16 (u32_sub (Settings.HEIGHT / 2)
      (u32_mul Settings.VERT_TILES Settings.DRAW_TILE_HEIGHT / 2)) }

/-- The loop of `render_tiles` (lines 120-124).  The list argument holds the
rectangles `tiles[i-1], tiles[i], ...` still to be drawn (a vector has fewer
than `2^32 - 1` elements), `i` is the `Uint32` loop counter, `destrect` the
current destination and the last argument the calls issued so far.  Each
pass draws the tile at the current destination and then recomputes the `int`
fields `x` and `y` of `destrect` from `i`. -/
def render_tiles_loop : List SDL_Rect → Nat → SDL_Rect → List RenderCopy → List RenderCopy
  | [], _, _, calls => calls
  | tile :: rest, i, destrect, calls =>
      render_tiles_loop rest (i + 1)
        { destrect with
          x := toInt32 (u32_add
            (u32_mul i Settings.DRAW_TILE_WIDTH
              % u32_mul Settings.DRAW_TILE_WIDTH Settings.HORZ_TILES)
            render_tiles_translate.x),
          y := toInt32 (u32_add
            (u32_mul (i / Settings.VERT_TILES) Settings.DRAW_TILE_HEIGHT)
            render_tiles_translate.y) }
        (calls ++ [{ srcrect := tile, dstrect := destrect }])

/-- The function `render_tiles(rend, tileset, tiles)`: the sequence of
`SDL_RenderCopy` calls it issues, in order. -/
def render_tiles (tiles : List SDL_Rect) : List RenderCopy :=
  let destrect : SDL_Rect :=
    { x := (render_tiles_translate.x : Int), y := (render_tiles_translate.y : Int),
      w := (Settings.DRAW_TILE_WIDTH : Int), h := (Settings.DRAW_TILE_HEIGHT : Int) }
  render_tiles_loop tiles 1 destrect []

/-! ## Reference definitions taken from the specification -/

/-- The placement law of the render collaborator: the destination of the
region at position `k`, a cell of the centred grid. -/
def grid_destination (k : Nat) : SDL_Rect :=
  { x := ((Settings.WIDTH / 2 - (Settings.HORZ_TILES * Settings.DRAW_TILE_WIDTH) / 2
      + (k * Settings.DRAW_TILE_WIDTH)
        % (Settings.DRAW_TILE_WIDTH * Settings.HORZ_TILES) : Nat) : Int),
    y := ((Settings.HEIGHT / 2 - (Settings.VERT_TILES * Settings.DRAW_TILE_HEIGHT) / 2
      + (k / Settings.VERT_TILES) * Settings.DRAW_TILE_HEIGHT : Nat) : Int),
    w := (Settings.DRAW_TILE_WIDTH : Int),
    h := (Settings.DRAW_TILE_HEIGHT : Int) }

/-- The calls that draw the regions of a list at the grid destinations of the
positions `k, k + 1, ...`. -/
def grid_calls : Nat → List SDL_Rect → List RenderCopy
  | _, [] => []
  | k, tile :: rest => { srcrect := tile, dstrect := grid_destination k } :: grid_calls (k + 1) rest

/-- Two rectangles share a pixel. -/
def rects_overlap (a b : SDL_Rect) : Bool :=
  decide (a.x < b.x + b.w) && decide (b.x < a.x + a.w) &&
  decide (a.y < b.y + b.h) && decide (b.y < a.y + a.h)

/-- A decoder that fails fast, as the specification asks of an implementer: no
result when a category index is 14 or more, the decoded pairs otherwise. -/
def decode_atlas_fail_fast (outvec : List Pair) (choices : List Nat) : Option (List Pair) :=
  if choices.all (fun c => decide (c < 14)) then some (decode_atlas outvec choices) else none

/-- The cumulative sums `acc + w₀, acc + w₀ + w₁, ...` of a weight table,
computed in one pass ahead of the sampling. -/
def cumulative_sums : ℚ → List ℚ → List ℚ
  | _, [] => []
  | acc, w :: ws => (acc + w) :: cumulative_sums (acc + w) ws

/-- Position (counted from `i`) of the first entry of a list that exceeds `r`. -/
def first_exceeding : List ℚ → Nat → ℚ → Option Nat
  | [], _, _ => none
  | c :: cs, i, r => if r < c then some i else first_exceeding cs (i + 1) r

/-- Inverse-CDF sampling over precomputed cumulative sums: the selected index
is the first one whose cumulative sum exceeds the sample. -/
def inverse_cdf_select (weights : List ℚ) (r : ℚ) : Option Nat :=
  first_exceeding (cumulative_sums 0 weights) 0 r

/-- The atlas position of a flower tile according to the layout comment of
`decode_atlas` (lines 74-84): indices 5..13 fill a grid of three columns, row
by row, starting at atlas row 1. -/
def layout_coordinate (i : Nat) : Pair :=
  { x := ((i - 5) % 3) * Settings.ATLAS_TILESIZE,
    y := (1 + (i - 5) / 3) * Settings.ATLAS_TILESIZE }

/-! ## Loops as list operations -/

theorem non_uniform_select_eq (A : FloatArith) (outvec : List Nat) (randvec revhist : List ℚ) :
    non_uniform_select A outvec randvec revhist
      = outvec ++ randvec.filterMap (non_uniform_search A revhist 0) := by
  unfold non_uniform_select
  induction randvec generalizing outvec with
  | nil => simp
  | cons r rs ih =>
    rw [List.foldl_cons, ih]
    cases h : non_uniform_search A revhist 0 r with
    | none => simp [List.filterMap_cons, h]
    | some c => simp [List.filterMap_cons, h]

theorem decode_atlas_eq (outvec : List Pair) (choices : List Nat) :
    decode_atlas outvec choices = outvec ++ choices.map decode_pair := by
  unfold decode_atlas
  induction choices generalizing outvec with
  | nil => simp
  | cons c cs ih => rw [List.foldl_cons, ih]; simp

theorem randomize_terrain_compose_eq (terrain : List SDL_Rect) (pairs : List Pair) :
    randomize_terrain_compose terrain pairs = terrain ++ pairs.map tile_rect := by
  unfold randomize_terrain_compose
  induction pairs generalizing terrain with
  | nil => simp
  | cons p ps ih => rw [List.foldl_cons, ih]; simp

theorem generate_randoms_fst (A : FloatArith) (RAND_MAX : Nat) (rng : Nat → Nat)
    (outvec : List ℚ) (count : Nat) :
    (generate_randoms A RAND_MAX rng outvec count).1
      = outvec ++ (List.range count).map
          (fun i => A.div (A.ofNat (rng i)) (A.ofNat RAND_MAX)) := by
  induction count generalizing rng outvec with
  | zero => simp [generate_randoms]
  | succ n ih =>
    rw [generate_randoms, ih, List.range_succ_eq_map]
    simp [List.map_map, Function.comp_def]

theorem generate_randoms_snd (A : FloatArith) (RAND_MAX : Nat) (rng : Nat → Nat)
    (outvec : List ℚ) (count : Nat) :
    (generate_randoms A RAND_MAX rng outvec count).2 = fun i => rng (i + count) := by
  induction count generalizing rng outvec with
  | zero => simp [generate_randoms]
  | succ n ih =>
    rw [generate_randoms, ih]
    funext i
    simp [Nat.add_assoc, Nat.add_comm 1 n]

theorem generate_randoms_length (A : FloatArith) (RAND_MAX : Nat) (rng : Nat → Nat)
    (count : Nat) : (generate_randoms A RAND_MAX rng [] count).1.length = count := by
  simp [generate_randoms_fst]

/-- Every value the inner loop pushes is the narrowed counter of a visited
entry. -/
theorem non_uniform_search_some (A : FloatArith) (l : List ℚ) (s : Nat) (r : ℚ) (c : Nat)
    (h : non_uniform_search A l s r = some c) :
    ∃ k, k < l.length ∧ c = toUint16 (s + k) := by
  induction l generalizing s r with
  | nil => simp [non_uniform_search] at h
  | cons w rest ih =>
    rw [non_uniform_search] at h
    split at h
    · exact ⟨0, by simp, by simpa using h.symm⟩
    · obtain ⟨k, hk, hc⟩ := ih _ _ h
      exact ⟨k + 1, by simpa using hk, by rw [hc]; congr 1; omega⟩

theorem non_uniform_search_lt (A : FloatArith) (revhist : List ℚ) (r : ℚ) (c : Nat)
    (h : non_uniform_search A revhist 0 r = some c) : c < revhist.length := by
  obtain ⟨k, hk, hc⟩ := non_uniform_search_some A revhist 0 r c h
  have : toUint16 (0 + k) ≤ k := by
    unfold toUint16
    rw [Nat.zero_add]
    exact Nat.mod_le _ _
  omega

/-! ## The atlas decoder -/

/-- C4: for every category index `i < 5`, `decode_atlas` (tile size 16) produces
the coordinate `(i * TS, 0)`; decoding `[0,1,2,3,4]` yields
`[(0,0),(16,0),(32,0),(48,0),(64,0)]`. -/
theorem decode_atlas_first_row (i : Nat) (hi : i < 5) :
    decode_atlas [] [i] = [{ x := i * Settings.ATLAS_TILESIZE, y := 0 }] ∧
    Settings.ATLAS_TILESIZE = 16 ∧
    decode_atlas [] [0, 1, 2, 3, 4]
      = [{ x := 0, y := 0 }, { x := 16, y := 0 }, { x := 32, y := 0 },
         { x := 48, y := 0 }, { x := 64, y := 0 }] := by
  refine ⟨?_, rfl, by decide⟩
  interval_cases i <;> decide

theorem decode_atlas_first_row_witness :
    (3 < 5) ∧ decode_atlas [] [3] = [{ x := 3 * Settings.ATLAS_TILESIZE, y := 0 }] :=
  ⟨by decide, (decode_atlas_first_row 3 (by decide)).1⟩

/-- C5: for every category index `5 ≤ i ≤ 13`, `decode_atlas` produces
`(((i + 3) * TS) mod (3 * TS), (i / 3) * TS - TS)` with floor division; the
subtraction does not underflow (`TS ≤ (i / 3) * TS`), no `Uint32` product
wraps and both results fit the 16-bit fields of `Pair`.  Index 5 decodes to
`(32, 0)` and index 13 to `(16, 48)`. -/
theorem decode_atlas_flower_formula (i : Nat) (h5 : 5 ≤ i) (h13 : i ≤ 13) :
    decode_atlas [] [i]
      = [{ x := ((i + 3) * Settings.ATLAS_TILESIZE) % (3 * Settings.ATLAS_TILESIZE),
           y := (i / 3) * Settings.ATLAS_TILESIZE - Settings.ATLAS_TILESIZE }] ∧
    Settings.ATLAS_TILESIZE ≤ (i / 3) * Settings.ATLAS_TILESIZE ∧
    (i + 3) * Settings.ATLAS_TILESIZE < 4294967296 ∧
    (i / 3) * Settings.ATLAS_TILESIZE < 4294967296 ∧
    ((i + 3) * Settings.ATLAS_TILESIZE) % (3 * Settings.ATLAS_TILESIZE) < 65536 ∧
    (i / 3) * Settings.ATLAS_TILESIZE - Settings.ATLAS_TILESIZE < 65536 ∧
    decode_atlas [] [5] = [{ x := 32, y := 0 }] ∧
    decode_atlas [] [13] = [{ x := 16, y := 48 }] := by
  interval_cases i <;> decide

theorem decode_atlas_flower_formula_witness :
    (5 ≤ 9) ∧ (9 ≤ 13) ∧
    decode_atlas [] [9]
      = [{ x := ((9 + 3) * Settings.ATLAS_TILESIZE) % (3 * Settings.ATLAS_TILESIZE),
           y := (9 / 3) * Settings.ATLAS_TILESIZE - Settings.ATLAS_TILESIZE }] :=
  ⟨by decide, by decide, (decode_atlas_flower_formula 9 (by decide) (by decide)).1⟩

/-- C6 (the code departs from its layout comment): index 5, the first blue
flower, is drawn by the comment at column 0 of atlas row 1, that is at
`(0, 16)`; `decode_atlas` sends it to `(32, 0)`, the tile of index 2 on row 0.
No index of 5..13 is decoded to the position the comment gives it: each
index from 6 on lands on the position drawn for its predecessor. -/
theorem decode_atlas_layout_mismatch :
    decode_atlas [] [5] = [{ x := 32, y := 0 }] ∧
    layout_coordinate 5 = { x := 0, y := 16 } ∧
    decode_atlas [] [2] = [{ x := 32, y := 0 }] ∧
    (∀ j : Fin 9, decode_atlas [] [j.val + 5] ≠ [layout_coordinate (j.val + 5)]) ∧
    (∀ j : Fin 8, decode_atlas [] [j.val + 6] = [layout_coordinate (j.val + 5)]) := by
  refine ⟨by decide, by decide, by decide, by decide, by decide⟩

/-! ## The probability table -/

theorem reverse_histogram_exact_nonneg : ∀ w ∈ reverse_histogram exact, 0 ≤ w := by
  intro w hw
  simp only [reverse_histogram, exact, List.mem_cons, List.mem_singleton,
    List.not_mem_nil, or_false] at hw
  rcases hw with h | h | h | h | h | h | h | h | h | h | h | h | h | h <;>
    (rw [h]; norm_num)

theorem reverse_histogram_exact_total : (reverse_histogram exact).sum = 1 := by
  simp only [reverse_histogram, exact, List.sum_cons, List.sum_nil]
  norm_num

/-- C8: the built-in table of `randomize_terrain` has exactly 14 entries, every
entry is non-negative, and the entries, read as exact decimal rationals, sum
to exactly 1. -/
theorem reverse_histogram_exact_sum :
    (reverse_histogram exact).length = 14 ∧
    (∀ w ∈ reverse_histogram exact, 0 ≤ w) ∧
    (reverse_histogram exact).sum = 1 :=
  ⟨rfl, reverse_histogram_exact_nonneg, reverse_histogram_exact_total⟩

/-! ## The composition step -/

/-- C10: for every sequence of atlas coordinates, the composition loop of
`randomize_terrain` (run on the cleared terrain) produces a region sequence of
the same length and order: its `k`-th region has the `x` and `y` of the `k`-th
coordinate and width = height = `ATLAS_TILESIZE` = 16. -/
theorem randomize_terrain_compose_spec (pairs : List Pair) :
    (randomize_terrain_compose [] pairs).length = pairs.length ∧
    (∀ k : Nat, (randomize_terrain_compose [] pairs)[k]?
      = (pairs[k]?).map (fun p => { x := (p.x : Int), y := (p.y : Int), w := 16, h := 16 })) ∧
    (∀ r ∈ randomize_terrain_compose [] pairs,
      r.w = (Settings.ATLAS_TILESIZE : Int) ∧ r.h = (Settings.ATLAS_TILESIZE : Int)) ∧
    (Settings.ATLAS_TILESIZE : Int) = 16 := by
  rw [randomize_terrain_compose_eq]
  refine ⟨by simp, ?_, ?_, rfl⟩
  · intro k
    simp only [List.nil_append, List.getElem?_map]
    rfl
  · intro r hr
    simp only [List.nil_append, List.mem_map] at hr
    obtain ⟨p, _, rfl⟩ := hr
    exact ⟨rfl, rfl⟩

/-! ## The weighted selector, for every arithmetic -/

theorem non_uniform_select_length_le (A : FloatArith) (randvec revhist : List ℚ) :
    (randvec.filterMap (non_uniform_search A revhist 0)).length ≤ randvec.length :=
  List.length_filterMap_le _ _

/-- C2: for every probability table of `K` weights (in particular every table
summing to 1 within 1e-6), every count `n` and every sequence of `n` samples,
`non_uniform_decisions` keeps `outvec` and appends at most `n` indices, each
of them below `K`.  Stated for the selection loop over an arbitrary sample
vector and for the whole function, in every arithmetic. -/
theorem non_uniform_decisions_bounds (A : FloatArith) (RAND_MAX : Nat) (rng : Nat → Nat)
    (outvec : List Nat) (count : Nat) (randvec revhist : List ℚ) :
    (∃ app, non_uniform_select A outvec randvec revhist = outvec ++ app ∧
      app.length ≤ randvec.length ∧ ∀ i ∈ app, i < revhist.length) ∧
    (∃ app, (non_uniform_decisions A RAND_MAX rng outvec count revhist).1 = outvec ++ app ∧
      app.length ≤ count ∧ ∀ i ∈ app, i < revhist.length) := by
  have key : ∀ rv : List ℚ, ∀ i ∈ rv.filterMap (non_uniform_search A revhist 0),
      i < revhist.length := by
    intro rv i hi
    obtain ⟨r, _, hr⟩ := List.mem_filterMap.1 hi
    exact non_uniform_search_lt A revhist r i hr
  refine ⟨⟨_, non_uniform_select_eq A outvec randvec revhist,
    non_uniform_select_length_le A randvec revhist, key randvec⟩, ?_⟩
  refine ⟨_, non_uniform_select_eq A outvec _ revhist, ?_, key _⟩
  calc _ ≤ (generate_randoms A RAND_MAX rng [] count).1.length :=
        non_uniform_select_length_le A _ revhist
    _ = count := generate_randoms_length A RAND_MAX rng count

/-! ## Regeneration replaces the snapshot -/

/-- The terrain left by `randomize_terrain`, as a function of the samples alone. -/
theorem randomize_terrain_eq (A : FloatArith) (RAND_MAX : Nat) (rng : Nat → Nat)
    (terrain : List SDL_Rect) :
    (randomize_terrain A RAND_MAX rng terrain).1
      = (((generate_randoms A RAND_MAX rng [] 256).1.filterMap
          (non_uniform_search A (reverse_histogram A) 0)).map decode_pair).map tile_rect := by
  simp only [randomize_terrain, non_uniform_decisions, randomize_terrain_compose_eq,
    decode_atlas_eq, non_uniform_select_eq, List.nil_append]
  rfl

/-- C9: `randomize_terrain` fully replaces the prior snapshot and is
deterministic in its samples.  For any two prior contents of `terrain` and
two runs in which `generate_randoms` hands the same sample vector to the
selector, the resulting terrains are identical; the result is the sequence of
regions composed from the freshly decoded choices and nothing else, so no
region is carried over from the prior snapshot. -/
theorem randomize_terrain_replaces (A : FloatArith) (RAND_MAX₁ RAND_MAX₂ : Nat)
    (rng₁ rng₂ : Nat → Nat) (terrain₁ terrain₂ : List SDL_Rect)
    (hsame : (generate_randoms A RAND_MAX₁ rng₁ [] 256).1
      = (generate_randoms A RAND_MAX₂ rng₂ [] 256).1) :
    (randomize_terrain A RAND_MAX₁ rng₁ terrain₁).1
      = (randomize_terrain A RAND_MAX₂ rng₂ terrain₂).1 ∧
    (randomize_terrain A RAND_MAX₁ rng₁ terrain₁).1
      = (randomize_terrain A RAND_MAX₁ rng₁ []).1 ∧
    (randomize_terrain A RAND_MAX₁ rng₁ terrain₁).1
      = (decode_atlas []
          (non_uniform_decisions A RAND_MAX₁ rng₁ [] 256 (reverse_histogram A)).1).map
          tile_rect := by
  refine ⟨?_, ?_, ?_⟩
  · rw [randomize_terrain_eq, randomize_terrain_eq, hsame]
  · rw [randomize_terrain_eq, randomize_terrain_eq]
  · rw [randomize_terrain_eq]
    simp only [non_uniform_decisions, decode_atlas_eq, non_uniform_select_eq, List.nil_append]

theorem randomize_terrain_replaces_witness :
    (generate_randoms exact 32767 (fun i => 100 * i) [] 256).1
      = (generate_randoms exact 32767 (fun i => 100 * i) [] 256).1 ∧
    (randomize_terrain exact 32767 (fun i => 100 * i) []).1
      = (randomize_terrain exact 32767 (fun i => 100 * i)
          [{ x := 64, y := 48, w := 16, h := 16 }]).1 :=
  ⟨rfl, (randomize_terrain_replaces exact 32767 32767 (fun i => 100 * i) (fun i => 100 * i)
    [] [{ x := 64, y := 48, w := 16, h := 16 }] rfl).1⟩

/-! ## The weighted selector in exact arithmetic -/

theorem take_sum_nonneg (l : List ℚ) (hw : ∀ w ∈ l, 0 ≤ w) (k : Nat) :
    0 ≤ (l.take k).sum :=
  List.sum_nonneg (fun x hx => hw x (List.mem_of_mem_take hx))

/-- In exact arithmetic the inner loop pushes the position `k` whose cumulative
interval holds the sample. -/
theorem non_uniform_search_exact_iff (l : List ℚ) (s : Nat) (r : ℚ) (i : Nat)
    (hw : ∀ w ∈ l, 0 ≤ w) (hr : 0 ≤ r) (hK : s + l.length ≤ 65536) :
    non_uniform_search exact l s r = some i ↔
      ∃ k, i = s + k ∧ (l.take k).sum ≤ r ∧ r < (l.take (k + 1)).sum := by
  induction l generalizing s r with
  | nil =>
    simp only [non_uniform_search, List.take_nil, List.sum_nil]
    constructor
    · intro h; cases h
    · rintro ⟨k, _, h1, h2⟩; linarith
  | cons w rest ih =>
    have hrest : ∀ x ∈ rest, 0 ≤ x := fun x hx => hw x (List.mem_cons_of_mem _ hx)
    have hsum := take_sum_nonneg rest hrest
    rw [List.length_cons] at hK
    rw [non_uniform_search]
    by_cases hlt : r < w
    · rw [if_pos hlt]
      have hs : toUint16 s = s := Nat.mod_eq_of_lt (by omega)
      rw [hs]
      constructor
      · intro h
        refine ⟨0, ?_, ?_, ?_⟩
        · simpa using (Option.some.inj h).symm
        · simpa using hr
        · simpa using hlt
      · rintro ⟨k, rfl, h1, h2⟩
        cases k with
        | zero => rfl
        | succ k =>
          rw [List.take_succ_cons, List.sum_cons] at h1
          have := hsum k
          linarith
    · rw [if_neg hlt]
      have hsub : exact.sub r w = r - w := rfl
      rw [hsub, ih (s + 1) (r - w) hrest (by linarith) (by omega)]
      constructor
      · rintro ⟨k, rfl, h1, h2⟩
        refine ⟨k + 1, by omega, ?_, ?_⟩
        · rw [List.take_succ_cons, List.sum_cons]; linarith
        · rw [List.take_succ_cons, List.sum_cons]; linarith
      · rintro ⟨k, rfl, h1, h2⟩
        cases k with
        | zero =>
          rw [List.take_succ_cons, List.sum_cons, List.take_zero, List.sum_nil] at h2
          exact absurd (by linarith) hlt
        | succ k =>
          rw [List.take_succ_cons, List.sum_cons] at h1 h2
          exact ⟨k, by omega, by linarith, by linarith⟩

/-- In exact arithmetic the subtraction walk and the search over precomputed
cumulative sums agree, for every table and every sample. -/
theorem non_uniform_search_exact_eq_first_exceeding (l : List ℚ) (s : Nat) (r acc : ℚ)
    (hK : s + l.length ≤ 65536) :
    non_uniform_search exact l s (r - acc) = first_exceeding (cumulative_sums acc l) s r := by
  induction l generalizing s acc with
  | nil => rfl
  | cons w rest ih =>
    rw [List.length_cons] at hK
    have hs : toUint16 s = s := Nat.mod_eq_of_lt (by omega)
    have hsub : exact.sub (r - acc) w = r - (acc + w) := by
      show r - acc - w = r - (acc + w)
      ring
    rw [non_uniform_search, cumulative_sums, first_exceeding, hs, hsub,
      ih (s + 1) (acc + w) (by omega)]
    by_cases h : r < acc + w
    · rw [if_pos h, if_pos (by linarith)]
    · rw [if_neg h, if_neg (by linarith)]

/-- In exact arithmetic, with non-negative weights and a non-negative sample,
the inner loop pushes an index exactly when the sample is below the sum of
the table. -/
theorem non_uniform_search_exact_isSome (l : List ℚ) (s : Nat) (r : ℚ)
    (hw : ∀ w ∈ l, 0 ≤ w) (hr : 0 ≤ r) :
    (non_uniform_search exact l s r).isSome = true ↔ r < l.sum := by
  induction l generalizing s r with
  | nil =>
    simp only [non_uniform_search, Option.isSome_none, List.sum_nil]
    constructor
    · intro h; cases h
    · intro h; linarith
  | cons w rest ih =>
    have hrest : ∀ x ∈ rest, 0 ≤ x := fun x hx => hw x (List.mem_cons_of_mem _ hx)
    have hsum : 0 ≤ rest.sum := List.sum_nonneg hrest
    rw [non_uniform_search, List.sum_cons]
    by_cases hlt : r < w
    · rw [if_pos hlt]
      simp only [Option.isSome_some, true_iff]
      linarith
    · rw [if_neg hlt]
      have hsub : exact.sub r w = r - w := rfl
      rw [hsub, ih (s + 1) (r - w) hrest (by linarith)]
      constructor <;> intro h <;> linarith

theorem generate_randoms_exact_nonneg (RAND_MAX : Nat) (rng : Nat → Nat) (count : Nat) :
    ∀ r ∈ (generate_randoms exact RAND_MAX rng [] count).1, 0 ≤ r := by
  intro r hr
  rw [generate_randoms_fst] at hr
  simp only [List.nil_append, List.mem_map] at hr
  obtain ⟨i, _, rfl⟩ := hr
  show (0 : ℚ) ≤ (rng i : ℚ) / (RAND_MAX : ℚ)
  positivity

theorem non_uniform_select_exact_length (randvec revhist : List ℚ)
    (hw : ∀ w ∈ revhist, 0 ≤ w) (hr : ∀ r ∈ randvec, 0 ≤ r) :
    (randvec.filterMap (non_uniform_search exact revhist 0)).length
      = randvec.countP (fun r => decide (r < revhist.sum)) := by
  rw [List.length_filterMap_eq_countP]
  apply List.countP_congr
  intro r hmem
  rw [non_uniform_search_exact_isSome revhist 0 r hw (hr r hmem)]
  simp

/-- C1 (amended): over exact arithmetic, for every table of non-negative
weights of at most 65536 entries (the range of the `Uint16` index that is
pushed) and every sample `r ≥ 0` (as `generate_randoms` produces them),
the subtraction walk emits index `i` if and only if the cumulative sum of
`w[0..i-1]` is `≤ r` and `r` is below the cumulative sum of `w[0..i]`; the
walk returns exactly what inverse-CDF sampling over precomputed cumulative
sums returns; and the interval on which index `i` is chosen has length `w[i]`. -/
theorem non_uniform_search_inverse_cdf (revhist : List ℚ) (r : ℚ)
    (hw : ∀ w ∈ revhist, 0 ≤ w) (hr : 0 ≤ r) (hK : revhist.length ≤ 65536) :
    (∀ i, non_uniform_search exact revhist 0 r = some i ↔
      (revhist.take i).sum ≤ r ∧ r < (revhist.take (i + 1)).sum) ∧
    non_uniform_search exact revhist 0 r = inverse_cdf_select revhist r ∧
    (∀ i (hi : i < revhist.length),
      (revhist.take (i + 1)).sum - (revhist.take i).sum = revhist[i]) := by
  refine ⟨?_, ?_, ?_⟩
  · intro i
    rw [non_uniform_search_exact_iff revhist 0 r i hw hr (by omega)]
    constructor
    · rintro ⟨k, hk, h1, h2⟩
      rw [Nat.zero_add] at hk
      subst hk
      exact ⟨h1, h2⟩
    · rintro ⟨h1, h2⟩
      exact ⟨i, by omega, h1, h2⟩
  · have h := non_uniform_search_exact_eq_first_exceeding revhist 0 r 0 (by omega)
    rw [sub_zero] at h
    exact h
  · intro i hi
    rw [List.sum_take_succ revhist i hi]
    ring

theorem non_uniform_search_inverse_cdf_witness :
    (∀ w ∈ [(1 / 2 : ℚ), 1 / 4, 1 / 4], 0 ≤ w) ∧ (0 : ℚ) ≤ 5 / 8 ∧
    [(1 / 2 : ℚ), 1 / 4, 1 / 4].length ≤ 65536 ∧
    non_uniform_search exact [(1 / 2 : ℚ), 1 / 4, 1 / 4] 0 (5 / 8)
      = inverse_cdf_select [(1 / 2 : ℚ), 1 / 4, 1 / 4] (5 / 8) :=
  have hw : ∀ w ∈ [(1 / 2 : ℚ), 1 / 4, 1 / 4], 0 ≤ w := by
    intro w h
    simp only [List.mem_cons, List.mem_singleton, List.not_mem_nil, or_false] at h
    rcases h with h | h | h <;> (rw [h]; norm_num)
  ⟨hw, by norm_num, by simp,
    (non_uniform_search_inverse_cdf [(1 / 2 : ℚ), 1 / 4, 1 / 4] (5 / 8) hw (by norm_num)
      (by simp)).2.1⟩

/-- C3: over exact arithmetic, for every table of non-negative weights and every
sequence of samples `r ≥ 0`: a sample at or above the sum of the weights
exhausts the table and emits nothing; a sample below the sum emits one index;
the selection loop appends to `outvec` the emitted indices in the order of
their samples; and the number of appended indices is the number of samples
strictly below the sum.  The count also holds for `non_uniform_decisions`,
whose samples `rand() / RAND_MAX` are never negative. -/
theorem non_uniform_select_underfill (RAND_MAX : Nat) (rng : Nat → Nat) (count : Nat)
    (outvec : List Nat) (randvec revhist : List ℚ)
    (hw : ∀ w ∈ revhist, 0 ≤ w) (hr : ∀ r ∈ randvec, 0 ≤ r) :
    (∀ r ∈ randvec, revhist.sum ≤ r → non_uniform_search exact revhist 0 r = none) ∧
    (∀ r ∈ randvec, r < revhist.sum → ∃ i, non_uniform_search exact revhist 0 r = some i) ∧
    non_uniform_select exact outvec randvec revhist
      = outvec ++ randvec.filterMap (non_uniform_search exact revhist 0) ∧
    (non_uniform_select exact outvec randvec revhist).length
      = outvec.length + randvec.countP (fun r => decide (r < revhist.sum)) ∧
    (non_uniform_decisions exact RAND_MAX rng outvec count revhist).1.length
      = outvec.length + (generate_randoms exact RAND_MAX rng [] count).1.countP
          (fun r => decide (r < revhist.sum)) := by
  refine ⟨?_, ?_, non_uniform_select_eq _ _ _ _, ?_, ?_⟩
  · intro r hmem hge
    have h := non_uniform_search_exact_isSome revhist 0 r hw (hr r hmem)
    cases hs : non_uniform_search exact revhist 0 r with
    | none => rfl
    | some c =>
      rw [hs] at h
      have : r < revhist.sum := h.1 rfl
      linarith
  · intro r hmem hlt
    have h := (non_uniform_search_exact_isSome revhist 0 r hw (hr r hmem)).2 hlt
    exact Option.isSome_iff_exists.1 h
  · rw [non_uniform_select_eq, List.length_append,
      non_uniform_select_exact_length randvec revhist hw hr]
  · show (non_uniform_select exact outvec _ revhist).length = _
    rw [non_uniform_select_eq, List.length_append,
      non_uniform_select_exact_length _ revhist hw
        (generate_randoms_exact_nonneg RAND_MAX rng count)]

theorem non_uniform_select_underfill_witness :
    (∀ w ∈ [(1 / 2 : ℚ), 1 / 4], 0 ≤ w) ∧ (∀ r ∈ [(7 / 8 : ℚ), 1 / 8, 5 / 8], 0 ≤ r) ∧
    non_uniform_select exact [] [(7 / 8 : ℚ), 1 / 8, 5 / 8] [(1 / 2 : ℚ), 1 / 4]
      = [] ++ [(7 / 8 : ℚ), 1 / 8, 5 / 8].filterMap
          (non_uniform_search exact [(1 / 2 : ℚ), 1 / 4] 0) :=
  have hw : ∀ w ∈ [(1 / 2 : ℚ), 1 / 4], 0 ≤ w := by
    intro w h
    simp only [List.mem_cons, List.mem_singleton, List.not_mem_nil, or_false] at h
    rcases h with h | h <;> (rw [h]; norm_num)
  have hr : ∀ r ∈ [(7 / 8 : ℚ), 1 / 8, 5 / 8], 0 ≤ r := by
    intro w h
    simp only [List.mem_cons, List.mem_singleton, List.not_mem_nil, or_false] at h
    rcases h with h | h | h <;> (rw [h]; norm_num)
  ⟨hw, hr, (non_uniform_select_underfill 32767 (fun _ => 0) 0 [] _ _ hw hr).2.2.1⟩

/-! ## Rounding is monotone -/

theorem floor_le_roundNearestEven (q : ℚ) : ⌊q⌋ ≤ roundNearestEven q := by
  unfold roundNearestEven
  dsimp only
  split_ifs <;> omega

theorem roundNearestEven_le_floor_succ (q : ℚ) : roundNearestEven q ≤ ⌊q⌋ + 1 := by
  unfold roundNearestEven
  dsimp only
  split_ifs <;> omega

theorem roundNearestEven_intCast (n : ℤ) : roundNearestEven (n : ℚ) = n := by
  unfold roundNearestEven
  simp

theorem roundNearestEven_mono {p q : ℚ} (h : p ≤ q) :
    roundNearestEven p ≤ roundNearestEven q := by
  rcases lt_or_eq_of_le (Int.floor_mono h) with hlt | heq
  · have h1 := roundNearestEven_le_floor_succ p
    have h2 := floor_le_roundNearestEven q
    omega
  · unfold roundNearestEven
    dsimp only
    rw [heq]
    split_ifs <;> first | omega | (exfalso; linarith)

theorem roundNearestEven_of_abs_lt (q : ℚ) (m : ℤ) (h : |q - m| < 1 / 2) :
    roundNearestEven q = m := by
  rw [abs_lt] at h
  by_cases hm : (m : ℚ) ≤ q
  · have hf : ⌊q⌋ = m := Int.floor_eq_iff.2 ⟨hm, by linarith⟩
    unfold roundNearestEven
    dsimp only
    rw [hf, if_pos (by linarith)]
  · have hf : ⌊q⌋ = m - 1 := Int.floor_eq_iff.2 ⟨by push_cast; linarith, by push_cast; linarith⟩
    unfold roundNearestEven
    dsimp only
    rw [hf, if_neg (by push_cast; linarith), if_pos (by push_cast; linarith)]
    ring

theorem two_zpow_pos (e : ℤ) : (0 : ℚ) < (2 : ℚ) ^ e := zpow_pos (by norm_num) e

theorem two_zpow_split (e : ℤ) : (2 : ℚ) ^ (e + 1) = 16777216 * (2 : ℚ) ^ (e - 23) := by
  have h : (2 : ℚ) ^ (e + 1) = (2 : ℚ) ^ (24 : ℤ) * (2 : ℚ) ^ (e - 23) := by
    rw [← zpow_add₀ (by norm_num : (2 : ℚ) ≠ 0)]
    congr 1
    ring
  rw [h]
  norm_num

theorem two_zpow_split_low (e : ℤ) : (2 : ℚ) ^ e = 8388608 * (2 : ℚ) ^ (e - 23) := by
  have h : (2 : ℚ) ^ e = (2 : ℚ) ^ (23 : ℤ) * (2 : ℚ) ^ (e - 23) := by
    rw [← zpow_add₀ (by norm_num : (2 : ℚ) ≠ 0)]
    congr 1
    ring
  rw [h]
  norm_num

theorem log_two_le {a : ℚ} (ha : 0 < a) : (2 : ℚ) ^ Int.log 2 a ≤ a := by
  have h := Int.zpow_log_le_self (by norm_num : 1 < 2) ha
  simpa using h

theorem lt_log_two_succ (a : ℚ) : a < (2 : ℚ) ^ (Int.log 2 a + 1) := by
  have h := Int.lt_zpow_succ_log_self (by norm_num : 1 < 2) a
  simpa using h

theorem roundBinary32Nonneg_nonneg {a : ℚ} (ha : 0 ≤ a) : 0 ≤ roundBinary32Nonneg a := by
  unfold roundBinary32Nonneg
  split_ifs with h0
  · exact le_refl 0
  · dsimp only
    have hu := two_zpow_pos (max (Int.log 2 a) (-126) - 23)
    have hq : (0 : ℚ) ≤ a / (2 : ℚ) ^ (max (Int.log 2 a) (-126) - 23) := div_nonneg ha hu.le
    have hr : (0 : ℤ) ≤ roundNearestEven (a / (2 : ℚ) ^ (max (Int.log 2 a) (-126) - 23)) := by
      have := roundNearestEven_mono (by exact_mod_cast hq :
        ((0 : ℤ) : ℚ) ≤ a / (2 : ℚ) ^ (max (Int.log 2 a) (-126) - 23))
      rwa [roundNearestEven_intCast] at this
    exact mul_nonneg (by exact_mod_cast hr) hu.le

/-- A positive value below `2^(E+1)`, rounded with unit `2^(E-23)`, does not
pass `2^(E+1)`. -/
theorem round_le_top {a : ℚ} {E : ℤ} (h : a < (2 : ℚ) ^ (E + 1)) :
    (roundNearestEven (a / (2 : ℚ) ^ (E - 23)) : ℚ) * (2 : ℚ) ^ (E - 23) ≤ (2 : ℚ) ^ (E + 1) := by
  have hu := two_zpow_pos (E - 23)
  rw [two_zpow_split E] at h ⊢
  have hq : a / (2 : ℚ) ^ (E - 23) ≤ ((16777216 : ℤ) : ℚ) := by
    rw [div_le_iff₀ hu]
    push_cast
    exact h.le
  have hr := roundNearestEven_mono hq
  rw [roundNearestEven_intCast] at hr
  have hr2 : (roundNearestEven (a / (2 : ℚ) ^ (E - 23)) : ℚ) ≤ 16777216 := by exact_mod_cast hr
  exact mul_le_mul_of_nonneg_right hr2 hu.le

/-- A value at or above `2^E`, rounded with unit `2^(E-23)`, stays at or above
`2^E`. -/
theorem le_round_bottom {b : ℚ} {E : ℤ} (h : (2 : ℚ) ^ E ≤ b) :
    (2 : ℚ) ^ E ≤ (roundNearestEven (b / (2 : ℚ) ^ (E - 23)) : ℚ) * (2 : ℚ) ^ (E - 23) := by
  have hu := two_zpow_pos (E - 23)
  rw [two_zpow_split_low E] at h ⊢
  have hq : ((8388608 : ℤ) : ℚ) ≤ b / (2 : ℚ) ^ (E - 23) := by
    rw [le_div_iff₀ hu]
    push_cast
    exact h
  have hr := roundNearestEven_mono hq
  rw [roundNearestEven_intCast] at hr
  have hr2 : (8388608 : ℚ) ≤ (roundNearestEven (b / (2 : ℚ) ^ (E - 23)) : ℚ) := by
    exact_mod_cast hr
  exact mul_le_mul_of_nonneg_right hr2 hu.le

theorem roundBinary32Nonneg_mono {a b : ℚ} (ha : 0 ≤ a) (hab : a ≤ b) :
    roundBinary32Nonneg a ≤ roundBinary32Nonneg b := by
  rcases eq_or_lt_of_le ha with h0 | hpos
  · rw [← h0]
    have : roundBinary32Nonneg 0 = 0 := by simp [roundBinary32Nonneg]
    rw [this]
    exact roundBinary32Nonneg_nonneg (le_trans ha hab)
  · have hbpos : 0 < b := lt_of_lt_of_le hpos hab
    have hlog : Int.log 2 a ≤ Int.log 2 b := Int.log_mono_right hpos hab
    unfold roundBinary32Nonneg
    rw [if_neg hpos.ne', if_neg hbpos.ne']
    dsimp only
    rcases lt_or_eq_of_le (max_le_max hlog (le_refl (-126 : ℤ))) with hlt | heq
    · -- different binades
      have hEb : max (Int.log 2 b) (-126) = Int.log 2 b := by
        apply max_eq_left
        by_contra hcon
        rw [max_eq_right (by omega : Int.log 2 b ≤ -126)] at hlt
        exact absurd hlt (not_lt.2 (le_max_right _ _))
      have h1 : a < (2 : ℚ) ^ (max (Int.log 2 a) (-126) + 1) :=
        lt_of_lt_of_le (lt_log_two_succ a)
          (zpow_le_zpow_right₀ (by norm_num) (by have := le_max_left (Int.log 2 a) (-126); omega))
      have h2 : (2 : ℚ) ^ (max (Int.log 2 b) (-126)) ≤ b := by
        rw [hEb]
        exact log_two_le hbpos
      calc _ ≤ (2 : ℚ) ^ (max (Int.log 2 a) (-126) + 1) := round_le_top h1
        _ ≤ (2 : ℚ) ^ (max (Int.log 2 b) (-126)) :=
            zpow_le_zpow_right₀ (by norm_num) (by omega)
        _ ≤ _ := le_round_bottom h2
    · rw [heq]
      have hu := two_zpow_pos (max (Int.log 2 b) (-126) - 23)
      have hq : a / (2 : ℚ) ^ (max (Int.log 2 b) (-126) - 23)
          ≤ b / (2 : ℚ) ^ (max (Int.log 2 b) (-126) - 23) :=
        div_le_div_of_nonneg_right hab hu.le
      have hr := roundNearestEven_mono hq
      exact mul_le_mul_of_nonneg_right (by exact_mod_cast hr) hu.le

theorem roundBinary32_of_nonneg {x : ℚ} (hx : 0 ≤ x) :
    roundBinary32 x = roundBinary32Nonneg x := by
  unfold roundBinary32
  rw [if_neg (not_lt.2 hx)]

theorem roundBinary32_mono {x y : ℚ} (hx : 0 ≤ x) (hxy : x ≤ y) :
    roundBinary32 x ≤ roundBinary32 y := by
  rw [roundBinary32_of_nonneg hx, roundBinary32_of_nonneg (le_trans hx hxy)]
  exact roundBinary32Nonneg_mono hx hxy

theorem roundBinary32_nonneg {x : ℚ} (hx : 0 ≤ x) : 0 ≤ roundBinary32 x := by
  rw [roundBinary32_of_nonneg hx]
  exact roundBinary32Nonneg_nonneg hx

/-- Evaluation of the rounding at a positive value: `E` is its binary exponent
and `m` the integer nearest to its quotient by the unit `2^(E-23)`. -/
theorem roundBinary32_eval (x : ℚ) (E m : ℤ) (hE : -126 ≤ E)
    (hlo : (2 : ℚ) ^ E ≤ x) (hhi : x < (2 : ℚ) ^ (E + 1))
    (hm : |x / (2 : ℚ) ^ (E - 23) - m| < 1 / 2) :
    roundBinary32 x = m * (2 : ℚ) ^ (E - 23) := by
  have hx : 0 < x := lt_of_lt_of_le (two_zpow_pos E) hlo
  have hlog : Int.log 2 x = E := by
    have h1 : E ≤ Int.log 2 x :=
      (Int.zpow_le_iff_le_log (by norm_num : 1 < 2) hx).1 (by simpa using hlo)
    have h2 : Int.log 2 x < E + 1 :=
      (Int.lt_zpow_iff_log_lt (by norm_num : 1 < 2) hx).1 (by simpa using hhi)
    omega
  rw [roundBinary32_of_nonneg hx.le]
  unfold roundBinary32Nonneg
  rw [if_neg hx.ne']
  dsimp only
  rw [hlog, max_eq_left hE, roundNearestEven_of_abs_lt _ m hm]


theorem roundBinary32_eval_eq (x : ℚ) (E m : ℤ) (v : ℚ) (hE : -126 ≤ E)
    (hlo : (2 : ℚ) ^ E ≤ x) (hhi : x < (2 : ℚ) ^ (E + 1))
    (hm : |x / (2 : ℚ) ^ (E - 23) - m| < 1 / 2) (hv : (m : ℚ) * (2 : ℚ) ^ (E - 23) = v) :
    roundBinary32 x = v := by
  rw [roundBinary32_eval x E m hE hlo hhi hm, hv]

theorem roundBinary32_one : roundBinary32 1 = 1 :=
  roundBinary32_eval_eq 1 0 8388608 1 (by norm_num) (by norm_num) (by norm_num)
    (by norm_num) (by norm_num)

/-! ## The table and the walk from sample 1 in binary32 -/

/-- The table as stored: every literal is rounded up to its binary32 neighbour. -/
theorem reverse_histogram_binary32 :
    reverse_histogram binary32
      = [12897485 / 16777216,
         13421773 / 536870912,
         13421773 / 536870912,
         13421773 / 536870912,
         13421773 / 536870912,
         13421773 / 536870912,
         13421773 / 4294967296,
         13421773 / 4294967296,
         13421773 / 536870912,
         13421773 / 1073741824,
         13421773 / 1073741824,
         13421773 / 536870912,
         13421773 / 1073741824,
         13421773 / 1073741824] := by
  have e1 : roundBinary32 0.76875 = 12897485 / 16777216 :=
    roundBinary32_eval_eq _ (-1) 12897485 _ (by norm_num) (by norm_num) (by norm_num)
      (by norm_num [abs_lt]) (by norm_num)
  have e2 : roundBinary32 0.025 = 13421773 / 536870912 :=
    roundBinary32_eval_eq _ (-6) 13421773 _ (by norm_num) (by norm_num) (by norm_num)
      (by norm_num [abs_lt]) (by norm_num)
  have e3 : roundBinary32 0.003125 = 13421773 / 4294967296 :=
    roundBinary32_eval_eq _ (-9) 13421773 _ (by norm_num) (by norm_num) (by norm_num)
      (by norm_num [abs_lt]) (by norm_num)
  have e4 : roundBinary32 0.0125 = 13421773 / 1073741824 :=
    roundBinary32_eval_eq _ (-7) 13421773 _ (by norm_num) (by norm_num) (by norm_num)
      (by norm_num [abs_lt]) (by norm_num)
  simp only [reverse_histogram, binary32, e1, e2, e3, e4]

/-- The walk from the largest sample, 1, with every subtraction rounded to
binary32, reaches the last entry with a remainder below it and emits 13. -/
theorem non_uniform_search_binary32_one :
    non_uniform_search binary32 (reverse_histogram binary32) 0 1 = some 13 := by
  rw [reverse_histogram_binary32]
  have s0 : binary32.sub (1) (12897485 / 16777216) = 3879731 / 16777216 :=
    roundBinary32_eval_eq _ (-3) 15518924 _ (by norm_num) (by norm_num) (by norm_num)
      (by norm_num [abs_lt]) (by norm_num)
  have s1 : binary32.sub (3879731 / 16777216) (13421773 / 536870912) = 6920601 / 33554432 :=
    roundBinary32_eval_eq _ (-3) 13841202 _ (by norm_num) (by norm_num) (by norm_num)
      (by norm_num [abs_lt]) (by norm_num)
  have s2 : binary32.sub (6920601 / 33554432) (13421773 / 536870912) = 1520435 / 8388608 :=
    roundBinary32_eval_eq _ (-3) 12163480 _ (by norm_num) (by norm_num) (by norm_num)
      (by norm_num [abs_lt]) (by norm_num)
  have s3 : binary32.sub (1520435 / 8388608) (13421773 / 536870912) = 5242879 / 33554432 :=
    roundBinary32_eval_eq _ (-3) 10485758 _ (by norm_num) (by norm_num) (by norm_num)
      (by norm_num [abs_lt]) (by norm_num)
  have s4 : binary32.sub (5242879 / 33554432) (13421773 / 536870912) = 2202009 / 16777216 :=
    roundBinary32_eval_eq _ (-3) 8808036 _ (by norm_num) (by norm_num) (by norm_num)
      (by norm_num [abs_lt]) (by norm_num)
  have s5 : binary32.sub (2202009 / 16777216) (13421773 / 536870912) = 14260629 / 134217728 :=
    roundBinary32_eval_eq _ (-4) 14260629 _ (by norm_num) (by norm_num) (by norm_num)
      (by norm_num [abs_lt]) (by norm_num)
  have s6 : binary32.sub (14260629 / 134217728) (13421773 / 4294967296) = 13841199 / 134217728 :=
    roundBinary32_eval_eq _ (-4) 13841199 _ (by norm_num) (by norm_num) (by norm_num)
      (by norm_num [abs_lt]) (by norm_num)
  have s7 : binary32.sub (13841199 / 134217728) (13421773 / 4294967296) = 13421769 / 134217728 :=
    roundBinary32_eval_eq _ (-4) 13421769 _ (by norm_num) (by norm_num) (by norm_num)
      (by norm_num [abs_lt]) (by norm_num)
  have s8 : binary32.sub (13421769 / 134217728) (13421773 / 536870912) = 5033163 / 67108864 :=
    roundBinary32_eval_eq _ (-4) 10066326 _ (by norm_num) (by norm_num) (by norm_num)
      (by norm_num [abs_lt]) (by norm_num)
  have s9 : binary32.sub (5033163 / 67108864) (13421773 / 1073741824) = 16777209 / 268435456 :=
    roundBinary32_eval_eq _ (-5) 16777209 _ (by norm_num) (by norm_num) (by norm_num)
      (by norm_num [abs_lt]) (by norm_num)
  have s10 : binary32.sub (16777209 / 268435456) (13421773 / 1073741824) = 6710883 / 134217728 :=
    roundBinary32_eval_eq _ (-5) 13421766 _ (by norm_num) (by norm_num) (by norm_num)
      (by norm_num [abs_lt]) (by norm_num)
  have s11 : binary32.sub (6710883 / 134217728) (13421773 / 536870912) = 13421759 / 536870912 :=
    roundBinary32_eval_eq _ (-6) 13421759 _ (by norm_num) (by norm_num) (by norm_num)
      (by norm_num [abs_lt]) (by norm_num)
  have s12 : binary32.sub (13421759 / 536870912) (13421773 / 1073741824) = 13421745 / 1073741824 :=
    roundBinary32_eval_eq _ (-7) 13421745 _ (by norm_num) (by norm_num) (by norm_num)
      (by norm_num [abs_lt]) (by norm_num)
  rw [non_uniform_search, if_neg (by norm_num), s0]
  rw [non_uniform_search, if_neg (by norm_num), s1]
  rw [non_uniform_search, if_neg (by norm_num), s2]
  rw [non_uniform_search, if_neg (by norm_num), s3]
  rw [non_uniform_search, if_neg (by norm_num), s4]
  rw [non_uniform_search, if_neg (by norm_num), s5]
  rw [non_uniform_search, if_neg (by norm_num), s6]
  rw [non_uniform_search, if_neg (by norm_num), s7]
  rw [non_uniform_search, if_neg (by norm_num), s8]
  rw [non_uniform_search, if_neg (by norm_num), s9]
  rw [non_uniform_search, if_neg (by norm_num), s10]
  rw [non_uniform_search, if_neg (by norm_num), s11]
  rw [non_uniform_search, if_neg (by norm_num), s12]
  rw [non_uniform_search, if_pos (by norm_num)]
  rfl

/-! ## Every sample of the closed unit interval selects a tile -/

/-- When subtraction is monotone in its first argument, lowering the sample
cannot turn an emitting walk into an exhausted one. -/
theorem non_uniform_search_isSome_mono (A : FloatArith)
    (hsub : ∀ a b w : ℚ, w ≤ a → a ≤ b → A.sub a w ≤ A.sub b w)
    (l : List ℚ) (s : Nat) (r R : ℚ) (h : r ≤ R)
    (hR : (non_uniform_search A l s R).isSome = true) :
    (non_uniform_search A l s r).isSome = true := by
  induction l generalizing s r R with
  | nil => simp [non_uniform_search] at hR
  | cons w rest ih =>
    rw [non_uniform_search] at hR ⊢
    by_cases hlt : r < w
    · rw [if_pos hlt]
      rfl
    · rw [if_neg hlt]
      have hw : w ≤ r := not_lt.1 hlt
      rw [if_neg (not_lt.2 (le_trans hw h))] at hR
      exact ih (s + 1) _ _ (hsub r R w hw h) hR

theorem binary32_sub_mono (a b w : ℚ) (hw : w ≤ a) (hab : a ≤ b) :
    binary32.sub a w ≤ binary32.sub b w :=
  roundBinary32_mono (by linarith) (by linarith)

theorem non_uniform_search_binary32_isSome (r : ℚ) (hr : r ≤ 1) :
    (non_uniform_search binary32 (reverse_histogram binary32) 0 r).isSome = true := by
  apply non_uniform_search_isSome_mono binary32 binary32_sub_mono _ 0 r 1 hr
  rw [non_uniform_search_binary32_one]
  rfl

/-- The samples of `generate_randoms` lie in the closed unit interval when
`rand()` stays within `0..RAND_MAX`, also after rounding to binary32. -/
theorem generate_randoms_binary32_unit (RAND_MAX : Nat) (rng : Nat → Nat) (count : Nat)
    (hM : 0 < RAND_MAX) (hrng : ∀ i, rng i ≤ RAND_MAX) :
    ∀ r ∈ (generate_randoms binary32 RAND_MAX rng [] count).1, 0 ≤ r ∧ r ≤ 1 := by
  intro r hr
  rw [generate_randoms_fst] at hr
  simp only [List.nil_append, List.mem_map] at hr
  obtain ⟨i, _, rfl⟩ := hr
  show 0 ≤ roundBinary32 (roundBinary32 (rng i : ℚ) / roundBinary32 (RAND_MAX : ℚ)) ∧
    roundBinary32 (roundBinary32 (rng i : ℚ) / roundBinary32 (RAND_MAX : ℚ)) ≤ 1
  have hk0 : (0 : ℚ) ≤ (rng i : ℚ) := Nat.cast_nonneg _
  have hkM : (rng i : ℚ) ≤ (RAND_MAX : ℚ) := by exact_mod_cast hrng i
  have hM1 : (1 : ℚ) ≤ (RAND_MAX : ℚ) := by exact_mod_cast hM
  have h1 : 0 ≤ roundBinary32 (rng i : ℚ) := roundBinary32_nonneg hk0
  have h2 : roundBinary32 (rng i : ℚ) ≤ roundBinary32 (RAND_MAX : ℚ) :=
    roundBinary32_mono hk0 hkM
  have h3 : 1 ≤ roundBinary32 (RAND_MAX : ℚ) := by
    have := roundBinary32_mono (by norm_num : (0 : ℚ) ≤ 1) hM1
    rwa [roundBinary32_one] at this
  have hq0 : 0 ≤ roundBinary32 (rng i : ℚ) / roundBinary32 (RAND_MAX : ℚ) :=
    div_nonneg h1 (by linarith)
  have hq1 : roundBinary32 (rng i : ℚ) / roundBinary32 (RAND_MAX : ℚ) ≤ 1 :=
    (div_le_one (by linarith)).2 h2
  refine ⟨roundBinary32_nonneg hq0, ?_⟩
  have := roundBinary32_mono hq0 hq1
  rwa [roundBinary32_one] at this

theorem non_uniform_select_binary32_length (outvec : List Nat) (randvec : List ℚ)
    (hr : ∀ r ∈ randvec, 0 ≤ r ∧ r ≤ 1) :
    (non_uniform_select binary32 outvec randvec (reverse_histogram binary32)).length
      = outvec.length + randvec.length := by
  rw [non_uniform_select_eq, List.length_append, List.length_filterMap_eq_countP]
  congr 1
  exact List.countP_eq_length.2 (fun r hmem => non_uniform_search_binary32_isSome r (hr r hmem).2)

/-- C7: for every sequence of 256 uniform samples, each in the closed interval
`[0, 1]`, `randomize_terrain` leaves `terrain` holding exactly
`HORZ_TILES * VERT_TILES = 256` regions.  The samples are the values
`rand() / float(RAND_MAX)` for `rand()` results in `0..RAND_MAX`; the
arithmetic is binary32, that of the `float` type of the program.  The first
part states it for the selection loop over an arbitrary vector of samples of
the closed unit interval. -/
theorem randomize_terrain_fills_grid (RAND_MAX : Nat) (rng : Nat → Nat)
    (terrain : List SDL_Rect) (hM : 0 < RAND_MAX) (hrng : ∀ i, rng i ≤ RAND_MAX) :
    (∀ randvec : List ℚ, (∀ r ∈ randvec, 0 ≤ r ∧ r ≤ 1) →
      (non_uniform_select binary32 [] randvec (reverse_histogram binary32)).length
        = randvec.length) ∧
    (∀ r ∈ (generate_randoms binary32 RAND_MAX rng [] 256).1, 0 ≤ r ∧ r ≤ 1) ∧
    (randomize_terrain binary32 RAND_MAX rng terrain).1.length
      = Settings.HORZ_TILES * Settings.VERT_TILES ∧
    Settings.HORZ_TILES * Settings.VERT_TILES = 256 := by
  refine ⟨?_, generate_randoms_binary32_unit RAND_MAX rng 256 hM hrng, ?_, rfl⟩
  · intro randvec hr
    rw [non_uniform_select_binary32_length [] randvec hr]
    simp
  · rw [randomize_terrain_eq, List.length_map, List.length_map,
      List.length_filterMap_eq_countP,
      List.countP_eq_length.2 (fun r hmem => non_uniform_search_binary32_isSome r
        (generate_randoms_binary32_unit RAND_MAX rng 256 hM hrng r hmem).2),
      generate_randoms_length]
    rfl

theorem randomize_terrain_fills_grid_witness :
    (0 < 32767) ∧ (∀ i : Nat, (fun _ : Nat => 32767) i ≤ 32767) ∧
    (randomize_terrain binary32 32767 (fun _ => 32767) []).1.length
      = Settings.HORZ_TILES * Settings.VERT_TILES :=
  ⟨by decide, fun _ => le_refl _,
    (randomize_terrain_fills_grid 32767 (fun _ => 32767) [] (by decide)
      (fun _ => le_refl _)).2.2.1⟩

/-- Read in exact arithmetic, with the literals taken as exact decimals, the
walk from the sample 1 exhausts the table: the last comparison is
`0.0125 < 0.0125`.  The program sees the rounded literals of
`reverse_histogram_binary32`, whose sum exceeds 1. -/
theorem non_uniform_search_exact_one :
    non_uniform_search exact (reverse_histogram exact) 0 1 = none ∧
    1 < (reverse_histogram binary32).sum := by
  constructor
  · have h := non_uniform_search_exact_isSome (reverse_histogram exact) 0 1
      reverse_histogram_exact_nonneg (by norm_num)
    rw [reverse_histogram_exact_total] at h
    cases hs : non_uniform_search exact (reverse_histogram exact) 0 1 with
    | none => rfl
    | some c =>
      rw [hs] at h
      exact absurd (h.1 rfl) (lt_irrefl 1)
  · rw [reverse_histogram_binary32]
    norm_num

/-! ## The decoder: frame, range and collisions -/

/-- C11: for every prior content of `outvec` and every choices sequence,
`decode_atlas` leaves the existing elements of `outvec` unchanged and appends
exactly one pair per choice; the `k`-th appended pair is the decoding of the
`k`-th choice. -/
theorem decode_atlas_frame (outvec : List Pair) (choices : List Nat) :
    decode_atlas outvec choices = outvec ++ choices.map decode_pair ∧
    (decode_atlas outvec choices).length = outvec.length + choices.length ∧
    (∀ k, k < outvec.length → (decode_atlas outvec choices)[k]? = outvec[k]?) ∧
    (∀ k, (decode_atlas outvec choices)[outvec.length + k]?
      = (choices[k]?).map decode_pair) ∧
    (∀ c, decode_atlas [] [c] = [decode_pair c]) := by
  rw [decode_atlas_eq]
  refine ⟨rfl, by simp, ?_, ?_, ?_⟩
  · intro k hk
    exact List.getElem?_append_left hk
  · intro k
    rw [List.getElem?_append_right (Nat.le_add_right _ _), Nat.add_sub_cancel_left,
      List.getElem?_map]
  · intro c
    rfl

theorem decode_pair_out_of_range (c : Nat) (h14 : 14 ≤ c) (hc : c < 65536) :
    decode_pair c
      = { x := ((c + 3) * Settings.ATLAS_TILESIZE) % (3 * Settings.ATLAS_TILESIZE),
          y := ((c / 3) * Settings.ATLAS_TILESIZE - Settings.ATLAS_TILESIZE) % 65536 } := by
  unfold decode_pair toUint16 u32_mul u32_sub Settings.ATLAS_TILESIZE
  rw [if_neg (by omega)]
  simp only [Nat.reduceMul, Nat.reduceMod]
  refine congrArg₂ Pair.mk ?_ ?_ <;> omega

/-- C13 (counterexample): on the choice 14 `decode_atlas` reports nothing and
appends the coordinate `(32, 48)`, where a fail-fast decoder has no result. -/
theorem decode_atlas_accepts_14 :
    decode_atlas [] [14] = [{ x := 32, y := 48 }] ∧
    decode_atlas_fail_fast [] [14] = none ∧
    some (decode_atlas [] [14]) ≠ decode_atlas_fail_fast [] [14] := by
  refine ⟨by decide, by decide, by decide⟩

/-- C13 (amended): `decode_atlas` has no error path.  For every choices
sequence it appends exactly one pair per choice, and a category index
`c ≥ 14` (a `Uint16`) is decoded by the flower branch to
`(((c + 3) * TS) mod (3 * TS), ((c / 3) * TS - TS) mod 2^16)`. -/
theorem decode_atlas_out_of_range (outvec : List Pair) (choices : List Nat) (c : Nat)
    (hmem : c ∈ choices) (h14 : 14 ≤ c) (hc : c < 65536) :
    (decode_atlas outvec choices).length = outvec.length + choices.length ∧
    ({ x := ((c + 3) * Settings.ATLAS_TILESIZE) % (3 * Settings.ATLAS_TILESIZE),
       y := ((c / 3) * Settings.ATLAS_TILESIZE - Settings.ATLAS_TILESIZE) % 65536 } : Pair)
      ∈ decode_atlas outvec choices ∧
    decode_atlas [] [c]
      = [{ x := ((c + 3) * Settings.ATLAS_TILESIZE) % (3 * Settings.ATLAS_TILESIZE),
           y := ((c / 3) * Settings.ATLAS_TILESIZE - Settings.ATLAS_TILESIZE) % 65536 }] := by
  rw [decode_atlas_eq, decode_atlas_eq]
  refine ⟨by simp, ?_, ?_⟩
  · rw [← decode_pair_out_of_range c h14 hc]
    exact List.mem_append_right _ (List.mem_map_of_mem _ hmem)
  · rw [← decode_pair_out_of_range c h14 hc]
    rfl

theorem decode_atlas_out_of_range_witness :
    (200 ∈ [3, 200]) ∧ (14 ≤ 200) ∧ (200 < 65536) ∧
    decode_atlas [] [200]
      = [{ x := ((200 + 3) * Settings.ATLAS_TILESIZE) % (3 * Settings.ATLAS_TILESIZE),
           y := ((200 / 3) * Settings.ATLAS_TILESIZE - Settings.ATLAS_TILESIZE) % 65536 }] :=
  ⟨by decide, by decide, by decide,
    (decode_atlas_out_of_range [] [3, 200] 200 (by decide) (by decide) (by decide)).2.2⟩

/-- C16 (the code is not injective): the categories 2 and 5 are decoded to the
same atlas coordinate `(32, 0)`; the layout comment gives index 5 the tile
`(0, 16)` of its own.  It is the only collision among the indices 0..13. -/
theorem decode_atlas_collision :
    decode_atlas [] [2] = [{ x := 32, y := 0 }] ∧
    decode_atlas [] [5] = [{ x := 32, y := 0 }] ∧
    decode_atlas [] [2] = decode_atlas [] [5] ∧
    layout_coordinate 5 = { x := 0, y := 16 } ∧
    (∀ i j : Fin 14, i < j → decode_atlas [] [i.val] = decode_atlas [] [j.val] →
      i.val = 2 ∧ j.val = 5) := by
  refine ⟨by decide, by decide, by decide, by decide, ?_⟩
  set_option maxRecDepth 16000 in decide

/-! ## The terrain stays inside the atlas -/

theorem decode_pair_in_atlas (c : Nat) (hc : c < 14) :
    ((decode_pair c).x = 0 ∨ (decode_pair c).x = 16 ∨ (decode_pair c).x = 32 ∨
      (decode_pair c).x = 48 ∨ (decode_pair c).x = 64) ∧
    ((decode_pair c).y = 0 ∨ (decode_pair c).y = 16 ∨ (decode_pair c).y = 32 ∨
      (decode_pair c).y = 48) := by
  interval_cases c <;> decide

/-- C14: for every sequence of uniform samples (every `rand()` stream, every
`RAND_MAX`, in every float arithmetic), each category index that
`randomize_terrain` passes to `decode_atlas` is below 14; every region of the
resulting terrain is a 16x16 rectangle with `x` in {0,16,32,48,64} and `y` in
{0,16,32,48}, inside the 80x64 tile area of the atlas. -/
theorem randomize_terrain_in_atlas (A : FloatArith) (RAND_MAX : Nat) (rng : Nat → Nat)
    (terrain : List SDL_Rect) :
    (∀ c ∈ (non_uniform_decisions A RAND_MAX rng []
        (toUint16 (u32_mul Settings.HORZ_TILES Settings.VERT_TILES))
        (reverse_histogram A)).1, c < 14) ∧
    (∀ r ∈ (randomize_terrain A RAND_MAX rng terrain).1,
      r.w = 16 ∧ r.h = 16 ∧
      (r.x = 0 ∨ r.x = 16 ∨ r.x = 32 ∨ r.x = 48 ∨ r.x = 64) ∧
      (r.y = 0 ∨ r.y = 16 ∨ r.y = 32 ∨ r.y = 48) ∧
      0 ≤ r.x ∧ r.x + 16 ≤ 80 ∧ 0 ≤ r.y ∧ r.y + 16 ≤ 64) := by
  have hlt : ∀ r : ℚ, ∀ c, non_uniform_search A (reverse_histogram A) 0 r = some c → c < 14 :=
    fun r c h => non_uniform_search_lt A (reverse_histogram A) r c h
  constructor
  · intro c hc
    simp only [non_uniform_decisions, non_uniform_select_eq, List.nil_append] at hc
    obtain ⟨r, _, hr⟩ := List.mem_filterMap.1 hc
    exact hlt r c hr
  · intro r hr
    rw [randomize_terrain_eq] at hr
    obtain ⟨p, hp, rfl⟩ := List.mem_map.1 hr
    obtain ⟨c, hc, rfl⟩ := List.mem_map.1 hp
    obtain ⟨q, _, hq⟩ := List.mem_filterMap.1 hc
    have h := decode_pair_in_atlas c (hlt q c hq)
    have hx : (tile_rect (decode_pair c)).x = ((decode_pair c).x : Int) := rfl
    have hy : (tile_rect (decode_pair c)).y = ((decode_pair c).y : Int) := rfl
    have hw : (tile_rect (decode_pair c)).w = 16 := rfl
    have hh : (tile_rect (decode_pair c)).h = 16 := rfl
    rw [hx, hy, hw, hh]
    omega

/-! ## The uniform sampler in exact arithmetic -/

/-- C15: for every count and every stream of `rand()` results within
`0..RAND_MAX` (`RAND_MAX` positive), `generate_randoms` keeps `outvec` and
appends exactly `count` values, the `i`-th being `k / RAND_MAX` for the `i`-th
result `k` (exact rational reading); each lies in `[0, 1]`, with 0 for `k = 0`
and 1 for `k = RAND_MAX`; `count = 0` appends nothing. -/
theorem generate_randoms_exact_spec (RAND_MAX : Nat) (rng : Nat → Nat) (outvec : List ℚ)
    (count : Nat) (hM : 0 < RAND_MAX) (hrng : ∀ i, rng i ≤ RAND_MAX) :
    (generate_randoms exact RAND_MAX rng outvec count).1
      = outvec ++ (List.range count).map (fun i => (rng i : ℚ) / (RAND_MAX : ℚ)) ∧
    (generate_randoms exact RAND_MAX rng outvec count).1.length = outvec.length + count ∧
    (∀ i, 0 ≤ (rng i : ℚ) / (RAND_MAX : ℚ) ∧ (rng i : ℚ) / (RAND_MAX : ℚ) ≤ 1) ∧
    (∀ i, rng i = 0 → (rng i : ℚ) / (RAND_MAX : ℚ) = 0) ∧
    (∀ i, rng i = RAND_MAX → (rng i : ℚ) / (RAND_MAX : ℚ) = 1) ∧
    (generate_randoms exact RAND_MAX rng outvec 0).1 = outvec := by
  have hMq : (0 : ℚ) < (RAND_MAX : ℚ) := by exact_mod_cast hM
  refine ⟨?_, ?_, ?_, ?_, ?_, rfl⟩
  · rw [generate_randoms_fst]
    rfl
  · rw [generate_randoms_fst]
    simp
  · intro i
    have hk : (rng i : ℚ) ≤ (RAND_MAX : ℚ) := by exact_mod_cast hrng i
    exact ⟨div_nonneg (Nat.cast_nonneg _) hMq.le, (div_le_one hMq).2 hk⟩
  · intro i h0
    rw [h0]
    simp
  · intro i h1
    rw [h1]
    exact div_self hMq.ne'

theorem generate_randoms_exact_spec_witness :
    (0 < 4) ∧ (∀ i : Nat, (fun j : Nat => j % 5) i ≤ 4) ∧
    (generate_randoms exact 4 (fun j => j % 5) [] 6).1
      = [] ++ (List.range 6).map
          (fun i => (((fun j : Nat => j % 5) i : Nat) : ℚ) / ((4 : Nat) : ℚ)) :=
  have h : ∀ i : Nat, (fun j : Nat => j % 5) i ≤ 4 := fun i => by
    show i % 5 ≤ 4
    omega
  ⟨by decide, h, (generate_randoms_exact_spec 4 (fun j => j % 5) [] 6 (by decide) h).1⟩

/-! ## The walk is monotone in the sample -/

/-- When subtraction is monotone in its first argument, a smaller sample is
emitted no later than a larger one. -/
theorem non_uniform_search_mono (A : FloatArith)
    (hsub : ∀ a b w : ℚ, w ≤ a → a ≤ b → A.sub a w ≤ A.sub b w)
    (l : List ℚ) (s : Nat) (r R : ℚ) (c₂ : Nat) (hK : s + l.length ≤ 65536) (h : r ≤ R)
    (hR : non_uniform_search A l s R = some c₂) :
    ∃ c₁, non_uniform_search A l s r = some c₁ ∧ s ≤ c₁ ∧ c₁ ≤ c₂ := by
  induction l generalizing s r R with
  | nil => simp [non_uniform_search] at hR
  | cons w rest ih =>
    rw [List.length_cons] at hK
    by_cases hlt : r < w
    · obtain ⟨k, hk, hc⟩ := non_uniform_search_some A (w :: rest) s R c₂ hR
      rw [List.length_cons] at hk
      have hs : toUint16 s = s := Nat.mod_eq_of_lt (by omega)
      have hsk : toUint16 (s + k) = s + k := Nat.mod_eq_of_lt (by omega)
      refine ⟨s, ?_, le_refl s, by omega⟩
      rw [non_uniform_search, if_pos hlt, hs]
    · have hw : w ≤ r := not_lt.1 hlt
      rw [non_uniform_search, if_neg (not_lt.2 (le_trans hw h))] at hR
      obtain ⟨c₁, h1, h2, h3⟩ := ih (s + 1) _ _ (by omega) (hsub r R w hw h) hR
      refine ⟨c₁, ?_, by omega, h3⟩
      rw [non_uniform_search, if_neg hlt]
      exact h1

/-- C17 (amended): in exact arithmetic, for every table of at most 65536
entries (the range of the `Uint16` index that is pushed; non-negative weights
in particular), the walk is
monotone in the sample: if `r₁ ≤ r₂` and the walk emits `i₂` for `r₂`, it
emits an index `i₁` for `r₁`, and `i₁ ≤ i₂`. -/
theorem non_uniform_search_exact_monotone (revhist : List ℚ) (r₁ r₂ : ℚ) (i₂ : Nat)
    (hK : revhist.length ≤ 65536) (hr : r₁ ≤ r₂)
    (h₂ : non_uniform_search exact revhist 0 r₂ = some i₂) :
    ∃ i₁, non_uniform_search exact revhist 0 r₁ = some i₁ ∧ i₁ ≤ i₂ := by
  have hsub : ∀ a b w : ℚ, w ≤ a → a ≤ b → exact.sub a w ≤ exact.sub b w := by
    intro a b w _ hab
    show a - w ≤ b - w
    linarith
  obtain ⟨i₁, h1, _, h3⟩ :=
    non_uniform_search_mono exact hsub revhist 0 r₁ r₂ i₂ (by omega) hr h₂
  exact ⟨i₁, h1, h3⟩

theorem non_uniform_search_exact_monotone_witness :
    ([(1 / 2 : ℚ), 1 / 4, 1 / 4].length ≤ 65536) ∧ ((1 / 8 : ℚ) ≤ 5 / 8) ∧
    non_uniform_search exact [(1 / 2 : ℚ), 1 / 4, 1 / 4] 0 (5 / 8) = some 1 ∧
    ∃ i₁, non_uniform_search exact [(1 / 2 : ℚ), 1 / 4, 1 / 4] 0 (1 / 8) = some i₁ ∧ i₁ ≤ 1 :=
  have h₂ : non_uniform_search exact [(1 / 2 : ℚ), 1 / 4, 1 / 4] 0 (5 / 8) = some 1 := by
    rw [non_uniform_search, if_neg (by norm_num), non_uniform_search, if_pos]
    · rfl
    · show (5 / 8 : ℚ) - 1 / 2 < 1 / 4
      norm_num
  ⟨by simp, by norm_num, h₂,
    non_uniform_search_exact_monotone [(1 / 2 : ℚ), 1 / 4, 1 / 4] (1 / 8) (5 / 8) 1
      (by simp) (by norm_num) h₂⟩

/-! ## The renderer -/

theorem grid_destination_eq (k : Nat) :
    grid_destination k
      = { x := 224 + 32 * ((k % 16 : Nat) : Int), y := 104 + 32 * ((k / 16 : Nat) : Int),
          w := 32, h := 32 } := by
  unfold grid_destination Settings.WIDTH Settings.HEIGHT Settings.HORZ_TILES
    Settings.VERT_TILES Settings.DRAW_TILE_WIDTH Settings.DRAW_TILE_HEIGHT
  simp only [Nat.reduceMul, Nat.reduceDiv, Nat.reduceSub]
  refine congr (congr (congrArg₂ SDL_Rect.mk ?_ ?_) rfl) rfl <;> omega

theorem render_tiles_translate_eq : render_tiles_translate = { x := 224, y := 104 } := by
  decide

/-- The update of `destrect` at counter `i` (lines 122-123) yields the grid
destination of position `i`, as long as no `Uint32` product wraps. -/
theorem render_tiles_update (i : Nat) (hi : i ≤ 67108864) (d : SDL_Rect)
    (hw : d.w = 32) (hh : d.h = 32) :
    ({ d with
        x := toInt32 (u32_add
          (u32_mul i Settings.DRAW_TILE_WIDTH
            % u32_mul Settings.DRAW_TILE_WIDTH Settings.HORZ_TILES)
          render_tiles_translate.x),
        y := toInt32 (u32_add
          (u32_mul (i / Settings.VERT_TILES) Settings.DRAW_TILE_HEIGHT)
          render_tiles_translate.y) } : SDL_Rect)
      = grid_destination i := by
  rw [grid_destination_eq, render_tiles_translate_eq]
  unfold toInt32 u32_add u32_mul Settings.HORZ_TILES Settings.VERT_TILES
    Settings.DRAW_TILE_WIDTH Settings.DRAW_TILE_HEIGHT
  simp only [Nat.reduceMul, Nat.reduceMod]
  have hx : (i * 32 % 4294967296 % 512 + 224) % 4294967296 < 2147483648 := by omega
  have hy : (i / 16 * 32 % 4294967296 + 104) % 4294967296 < 2147483648 := by omega
  rw [if_pos hx, if_pos hy]
  refine congr (congr (congrArg₂ SDL_Rect.mk ?_ ?_) hw) hh <;> omega

theorem render_tiles_loop_eq (l : List SDL_Rect) (j : Nat) (calls : List RenderCopy)
    (hj : j + l.length ≤ 67108864) :
    render_tiles_loop l (j + 1) (grid_destination j) calls = calls ++ grid_calls j l := by
  induction l generalizing j calls with
  | nil => simp [render_tiles_loop, grid_calls]
  | cons t rest ih =>
    rw [List.length_cons] at hj
    have hw : (grid_destination j).w = 32 := rfl
    have hh : (grid_destination j).h = 32 := rfl
    rw [render_tiles_loop, render_tiles_update (j + 1) (by omega) _ hw hh,
      ih (j + 1) _ (by omega), grid_calls]
    simp

theorem render_tiles_eq (tiles : List SDL_Rect) (hlen : tiles.length ≤ 67108864) :
    render_tiles tiles = grid_calls 0 tiles := by
  have h0 : render_tiles tiles = render_tiles_loop tiles (0 + 1) (grid_destination 0) [] := rfl
  rw [h0, render_tiles_loop_eq tiles 0 [] (by omega)]
  rfl

theorem grid_calls_length (j : Nat) (l : List SDL_Rect) : (grid_calls j l).length = l.length := by
  induction l generalizing j with
  | nil => rfl
  | cons t rest ih => simp [grid_calls, ih]

theorem grid_calls_get (j : Nat) (l : List SDL_Rect) (k : Nat) :
    (grid_calls j l)[k]?
      = (l[k]?).map
          (fun t => ({ srcrect := t, dstrect := grid_destination (j + k) } : RenderCopy)) := by
  induction l generalizing j k with
  | nil => simp [grid_calls]
  | cons t rest ih =>
    cases k with
    | zero => simp [grid_calls]
    | succ k =>
      simp only [grid_calls, List.getElem?_cons_succ]
      rw [ih (j + 1) k]
      have : j + 1 + k = j + (k + 1) := by omega
      rw [this]

/-- C12: for every terrain of at most 256 regions, `render_tiles` issues one
draw call per region, in index order, and draws region `i` (0-based) with size
`DRAW_TILE_WIDTH x DRAW_TILE_HEIGHT` at
`(WIDTH/2 - (HORZ_TILES*DRAW_TILE_WIDTH)/2 + (i*DRAW_TILE_WIDTH) mod (DRAW_TILE_WIDTH*HORZ_TILES),
HEIGHT/2 - (VERT_TILES*DRAW_TILE_HEIGHT)/2 + (i / VERT_TILES)*DRAW_TILE_HEIGHT)`,
which is `(224 + 32*(i mod 16), 104 + 32*(i / 16))`. -/
theorem render_tiles_placement (tiles : List SDL_Rect) (hlen : tiles.length ≤ 256) :
    (render_tiles tiles).length = tiles.length ∧
    (∀ i : Nat, (render_tiles tiles)[i]?
      = (tiles[i]?).map
          (fun t => ({ srcrect := t, dstrect := grid_destination i } : RenderCopy))) ∧
    (∀ i : Nat, grid_destination i
      = { x := 224 + 32 * ((i % 16 : Nat) : Int), y := 104 + 32 * ((i / 16 : Nat) : Int),
          w := 32, h := 32 }) := by
  rw [render_tiles_eq tiles (by omega)]
  refine ⟨grid_calls_length 0 tiles, ?_, grid_destination_eq⟩
  intro i
  rw [grid_calls_get, Nat.zero_add]

theorem render_tiles_placement_witness :
    ([({ x := 0, y := 0, w := 16, h := 16 } : SDL_Rect),
      { x := 32, y := 16, w := 16, h := 16 }].length ≤ 256) ∧
    (render_tiles [{ x := 0, y := 0, w := 16, h := 16 },
      { x := 32, y := 16, w := 16, h := 16 }])[1]?
      = some { srcrect := { x := 32, y := 16, w := 16, h := 16 },
               dstrect := grid_destination 1 } :=
  ⟨by decide,
    ((render_tiles_placement [{ x := 0, y := 0, w := 16, h := 16 },
      { x := 32, y := 16, w := 16, h := 16 }] (by decide)).2.1 1).trans rfl⟩

theorem render_tiles_get_some (tiles : List SDL_Rect) (hlen : tiles.length ≤ 256)
    (k : Nat) (c : RenderCopy) (h : (render_tiles tiles)[k]? = some c) :
    k < 256 ∧ c.dstrect = grid_destination k := by
  rw [render_tiles_eq tiles (by omega), grid_calls_get, Nat.zero_add] at h
  cases ht : tiles[k]? with
  | none => rw [ht] at h; cases h
  | some t =>
    rw [ht] at h
    have hk : k < tiles.length := (List.getElem?_eq_some_iff.1 ht).1
    have hc : c = { srcrect := t, dstrect := grid_destination k } := (Option.some.inj h).symm
    exact ⟨by omega, by rw [hc]⟩

/-- C18: for every terrain of at most 256 regions, the destination rectangles
that `render_tiles` computes for distinct positions do not overlap; each is a
32x32 rectangle inside the 960x720 window; and the centring offsets 224 and
104 are computed without unsigned underflow and fit the 16-bit fields of
`translate`. -/
theorem render_tiles_grid_safe (tiles : List SDL_Rect) (hlen : tiles.length ≤ 256) :
    (∀ (i j : Nat) (a b : RenderCopy), i ≠ j →
      (render_tiles tiles)[i]? = some a → (render_tiles tiles)[j]? = some b →
      rects_overlap a.dstrect b.dstrect = false) ∧
    (∀ c ∈ render_tiles tiles,
      c.dstrect.w = 32 ∧ c.dstrect.h = 32 ∧
      0 ≤ c.dstrect.x ∧ c.dstrect.x + 32 ≤ (Settings.WIDTH : Int) ∧
      0 ≤ c.dstrect.y ∧ c.dstrect.y + 32 ≤ (Settings.HEIGHT : Int)) ∧
    (Settings.WIDTH : Int) = 960 ∧ (Settings.HEIGHT : Int) = 720 ∧
    (Settings.HORZ_TILES * Settings.DRAW_TILE_WIDTH) / 2 ≤ Settings.WIDTH / 2 ∧
    (Settings.VERT_TILES * Settings.DRAW_TILE_HEIGHT) / 2 ≤ Settings.HEIGHT / 2 ∧
    Settings.WIDTH / 2 - (Settings.HORZ_TILES * Settings.DRAW_TILE_WIDTH) / 2 < 65536 ∧
    Settings.HEIGHT / 2 - (Settings.VERT_TILES * Settings.DRAW_TILE_HEIGHT) / 2 < 65536 ∧
    render_tiles_translate
      = { x := Settings.WIDTH / 2 - (Settings.HORZ_TILES * Settings.DRAW_TILE_WIDTH) / 2,
          y := Settings.HEIGHT / 2 - (Settings.VERT_TILES * Settings.DRAW_TILE_HEIGHT) / 2 } ∧
    render_tiles_translate = { x := 224, y := 104 } := by
  refine ⟨?_, ?_, rfl, rfl, by decide, by decide, by decide, by decide, by decide, by decide⟩
  · intro i j a b hij ha hb
    obtain ⟨hi, hda⟩ := render_tiles_get_some tiles hlen i a ha
    obtain ⟨hj, hdb⟩ := render_tiles_get_some tiles hlen j b hb
    rw [hda, hdb, grid_destination_eq, grid_destination_eq]
    simp only [rects_overlap, Bool.and_eq_false_iff, decide_eq_false_iff_not, not_lt]
    omega
  · intro c hc
    obtain ⟨k, hk⟩ := List.mem_iff_getElem?.1 hc
    obtain ⟨hk256, hd⟩ := render_tiles_get_some tiles hlen k c hk
    rw [hd, grid_destination_eq]
    refine ⟨rfl, rfl, ?_, ?_, ?_, ?_⟩ <;> simp only [Settings.WIDTH, Settings.HEIGHT] <;> omega

theorem render_tiles_grid_safe_witness :
    ([({ x := 0, y := 0, w := 16, h := 16 } : SDL_Rect),
      { x := 32, y := 16, w := 16, h := 16 }].length ≤ 256) ∧
    (∀ c ∈ render_tiles [{ x := 0, y := 0, w := 16, h := 16 },
        { x := 32, y := 16, w := 16, h := 16 }],
      c.dstrect.w = 32 ∧ c.dstrect.h = 32 ∧
      0 ≤ c.dstrect.x ∧ c.dstrect.x + 32 ≤ (Settings.WIDTH : Int) ∧
      0 ≤ c.dstrect.y ∧ c.dstrect.y + 32 ≤ (Settings.HEIGHT : Int)) :=
  ⟨by decide,
    (render_tiles_grid_safe [{ x := 0, y := 0, w := 16, h := 16 },
      { x := 32, y := 16, w := 16, h := 16 }] (by decide)).2.1⟩

/-! ## Tables longer than the range of the pushed index -/

/-- In exact arithmetic a non-negative sample walks past leading zero weights
unchanged; only the counter advances. -/
theorem non_uniform_search_exact_skip_zeros (n : Nat) (l : List ℚ) (s : Nat) (r : ℚ)
    (hr : 0 ≤ r) :
    non_uniform_search exact (List.replicate n 0 ++ l) s r
      = non_uniform_search exact l (s + n) r := by
  induction n generalizing s with
  | zero => rfl
  | succ n ih =>
    have hsub : exact.sub r 0 = r := by
      show r - 0 = r
      ring
    rw [List.replicate_succ, List.cons_append, non_uniform_search, if_neg (not_lt.2 hr), hsub,
      ih (s + 1)]
    congr 1
    omega

theorem zeros_append_nonneg (n : Nat) (l : List ℚ) (hl : ∀ w ∈ l, 0 ≤ w) :
    ∀ w ∈ List.replicate n (0 : ℚ) ++ l, 0 ≤ w := by
  intro w hw
  rcases List.mem_append.1 hw with h | h
  · rw [List.eq_of_mem_replicate h]
  · exact hl w h

theorem zeros_append_take_sum (n k : Nat) (l : List ℚ) (hk : k ≤ n) :
    ((List.replicate n (0 : ℚ) ++ l).take k).sum = 0 := by
  apply List.sum_eq_zero
  intro x hx
  have hk2 : k ≤ (List.replicate n (0 : ℚ)).length := by
    rw [List.length_replicate]
    exact hk
  rw [List.take_append_of_le_length hk2] at hx
  exact List.eq_of_mem_replicate (List.mem_of_mem_take hx)

theorem zeros_append_take_all_sum (n : Nat) (w : ℚ) :
    ((List.replicate n (0 : ℚ) ++ [w]).take (n + 1)).sum = w := by
  have hlen : (List.replicate n (0 : ℚ) ++ [w]).length ≤ n + 1 := by
    rw [List.length_append, List.length_replicate]
    exact le_refl _
  rw [List.take_of_length_le hlen, List.sum_append, List.sum_replicate]
  simp

theorem non_uniform_search_after_zeros (n : Nat) :
    non_uniform_search exact (List.replicate n 0 ++ [1]) 0 (3 / 4) = some (toUint16 n) := by
  rw [non_uniform_search_exact_skip_zeros n [1] 0 (3 / 4) (by norm_num), Nat.zero_add,
    non_uniform_search, if_pos (by norm_num)]

theorem non_uniform_search_after_zeros_low (n : Nat) :
    non_uniform_search exact (List.replicate n 0 ++ [1 / 2, 1 / 2]) 0 (1 / 4)
      = some (toUint16 n) := by
  rw [non_uniform_search_exact_skip_zeros n _ 0 (1 / 4) (by norm_num), Nat.zero_add,
    non_uniform_search, if_pos (by norm_num)]

theorem non_uniform_search_after_zeros_high (n : Nat) :
    non_uniform_search exact (List.replicate n 0 ++ [1 / 2, 1 / 2]) 0 (3 / 4)
      = some (toUint16 (n + 1)) := by
  have hsub : exact.sub (3 / 4) (1 / 2) = 1 / 4 := by
    show (3 / 4 : ℚ) - 1 / 2 = 1 / 4
    norm_num
  rw [non_uniform_search_exact_skip_zeros n _ 0 (3 / 4) (by norm_num), Nat.zero_add,
    non_uniform_search, if_neg (by norm_num), hsub, non_uniform_search,
    if_pos (by norm_num)]

/-- C1 (counterexample): on the table of 65536 zero weights followed by the
weight 1, the sample 3/4 lies in the cumulative interval of index 65536
(`0 ≤ 3/4 < 1`), and the walk pushes 0, the counter 65536 narrowed to
`Uint16`; the cumulative interval of index 0 is empty. -/
theorem non_uniform_search_index_wraps :
    (∀ w ∈ List.replicate 65536 (0 : ℚ) ++ [1], 0 ≤ w) ∧
    non_uniform_search exact (List.replicate 65536 0 ++ [1]) 0 (3 / 4) = some 0 ∧
    ¬ (((List.replicate 65536 (0 : ℚ) ++ [1]).take 0).sum ≤ 3 / 4 ∧
      (3 / 4 : ℚ) < ((List.replicate 65536 (0 : ℚ) ++ [1]).take 1).sum) ∧
    (((List.replicate 65536 (0 : ℚ) ++ [1]).take 65536).sum ≤ 3 / 4 ∧
      (3 / 4 : ℚ) < ((List.replicate 65536 (0 : ℚ) ++ [1]).take (65536 + 1)).sum) ∧
    non_uniform_search exact (List.replicate 65536 0 ++ [1]) 0 (3 / 4) ≠ some 65536 := by
  have hw := zeros_append_nonneg 65536 [1] (by
    intro w h
    rw [List.mem_singleton.1 h]
    norm_num)
  have hs := non_uniform_search_after_zeros 65536
  have h0 : toUint16 65536 = 0 := by decide
  rw [h0] at hs
  refine ⟨hw, hs, ?_, ⟨?_, ?_⟩, ?_⟩
  · rw [zeros_append_take_sum 65536 1 [1] (by decide)]
    rintro ⟨_, h⟩
    norm_num at h
  · rw [zeros_append_take_sum 65536 65536 [1] (le_refl _)]
    norm_num
  · rw [zeros_append_take_all_sum 65536 1]
    norm_num
  · rw [hs]
    intro h
    exact absurd (Option.some.inj h) (by decide)

/-- C17 (counterexample): on the table of 65535 zero weights followed by
1/2, 1/2, the sample 1/4 is emitted as 65535 and the larger sample 3/4 as 0,
the counter 65536 narrowed to `Uint16`: the emitted value decreases. -/
theorem non_uniform_search_not_monotone :
    (∀ w ∈ List.replicate 65535 (0 : ℚ) ++ [1 / 2, 1 / 2], 0 ≤ w) ∧
    ((1 / 4 : ℚ) ≤ 3 / 4) ∧
    non_uniform_search exact (List.replicate 65535 0 ++ [1 / 2, 1 / 2]) 0 (3 / 4) = some 0 ∧
    non_uniform_search exact (List.replicate 65535 0 ++ [1 / 2, 1 / 2]) 0 (1 / 4)
      = some 65535 ∧
    ¬ ∃ i₁, non_uniform_search exact (List.replicate 65535 0 ++ [1 / 2, 1 / 2]) 0 (1 / 4)
        = some i₁ ∧ i₁ ≤ 0 := by
  have hw := zeros_append_nonneg 65535 [1 / 2, 1 / 2] (by
    intro w h
    simp only [List.mem_cons, List.mem_singleton, List.not_mem_nil, or_false] at h
    rcases h with h | h <;> (rw [h]; norm_num))
  have hlow := non_uniform_search_after_zeros_low 65535
  have hhigh := non_uniform_search_after_zeros_high 65535
  have h1 : toUint16 65535 = 65535 := by decide
  have h2 : toUint16 (65535 + 1) = 0 := by decide
  rw [h1] at hlow
  rw [h2] at hhigh
  refine ⟨hw, by norm_num, hhigh, hlow, ?_⟩
  rintro ⟨i₁, hi, hle⟩
  rw [hlow] at hi
  have : 65535 = i₁ := Option.some.inj hi
  omega

end Game1
